import Mathlib

/-!
Verification development for the EPICS libCom calc subsystem
(postfix.h: the expression compiler, the stack-machine evaluator
calcPerform, and the argument-usage scan calcArgUsage).

The repository ships only the documented header; the compiler and
evaluator bodies are not part of the sources.  Following the design
specification, both are modelled here as Lean functions:

* machine doubles are modelled as real numbers (so IEEE infinities,
  NaN and rounding are outside the model; numeric literals, which the
  grammar restricts to non-negative decimal forms, are carried as
  rationals inside the bytecode);
* the bytecode buffer is modelled as a list of tagged instructions,
  as the specification itself suggests; byte sizes of the packed
  encoding (1 byte per opcode, 4 extra bytes for an integer literal,
  8 extra bytes for a double literal) are recovered by instrSize;
* the hidden state of the C library random generator behind the rndm
  element is modelled by an explicit stream of reals consumed by the
  evaluator;
* the fixed function table is modelled with its fixed-arity entries
  (the variadic forms of min/max/isnan/finite, the VAL element and
  the special Inf/NaN literals are outside the model).
-/

set_option maxHeartbeats 2000000

namespace CalcSpec

/-- Modelled from the spec: the error taxonomy of postfix.h
(CALC_ERR_TOOMANY .. CALC_ERR_INTERNAL); CALC_ERR_NONE is represented
by a successful Except result. -/
inductive CalcErr where
  | TOOMANY
  | BAD_LITERAL
  | BAD_ASSIGNMENT
  | BAD_SEPERATOR
  | PAREN_NOT_OPEN
  | PAREN_OPEN
  | CONDITIONAL
  | INCOMPLETE
  | UNDERFLOW
  | OVERFLOW
  | SYNTAX
  | NULL_ARG
  | INTERNAL
  deriving DecidableEq

instance {e a : Type} [DecidableEq e] [DecidableEq a] :
    DecidableEq (Except e a) := fun x y =>
  match x, y with
  | .error u, .error v => decidable_of_iff (u = v) (by simp)
  | .ok u, .ok v => decidable_of_iff (u = v) (by simp)
  | .error _, .ok _ => .isFalse (by simp)
  | .ok _, .error _ => .isFalse (by simp)

/-- The three named constants pi, D2R and R2D. -/
inductive Op0 where
  | pi
  | d2r
  | r2d
  deriving DecidableEq

/-- Modelled from the spec: values of the named constants. -/
noncomputable def Op0.sem : Op0 → ℝ
  | .pi => Real.pi
  | .d2r => Real.pi / 180
  | .r2d => 180 / Real.pi

/-- Unary operators and one-argument functions of the fixed table. -/
inductive Op1 where
  | neg
  | lnot
  | bnot
  | abs
  | exp
  | log10
  | ln
  | sqrt
  | sin
  | cos
  | tan
  | asin
  | acos
  | atan
  | sinh
  | cosh
  | tanh
  | ceil
  | floor
  | nint
  deriving DecidableEq

/-- Truncation of a real toward zero, as the C cast to a long
used by the modulo, shift and bitwise elements. -/
noncomputable def rtrunc (x : ℝ) : ℤ :=
  if x < 0 then -
    Int.floor (-x)
  else Int.floor x

/-- Modelled from the spec: semantics of the unary elements.  Boolean
not maps zero to one and any non-zero value to zero; bitwise not
truncates to an integer, complements and converts back. -/
noncomputable def Op1.sem : Op1 → ℝ → ℝ
  | .neg, x => -x
  | .lnot, x => if x = 0 then 1 else 0
  | .bnot, x => ((-(rtrunc x) - 1 : ℤ) : ℝ)
  | .abs, x => |x|
  | .exp, x => Real.exp x
  | .log10, x => Real.logb 10 x
  | .ln, x => Real.log x
  | .sqrt, x => Real.sqrt x
  | .sin, x => Real.sin x
  | .cos, x => Real.cos x
  | .tan, x => Real.tan x
  | .asin, x => Real.arcsin x
  | .acos, x => Real.arccos x
  | .atan, x => Real.arctan x
  | .sinh, x => Real.sinh x
  | .cosh, x => Real.cosh x
  | .tanh, x => Real.tanh x
  | .ceil, x => ((Int.ceil x : ℤ) : ℝ)
  | .floor, x => ((Int.floor x : ℤ) : ℝ)
  | .nint, x => ((Int.floor (x + 1/2) : ℤ) : ℝ)

/-- Binary operators and two-argument functions of the fixed table. -/
inductive Op2 where
  | add
  | sub
  | mul
  | div
  | mod
  | pow
  | shl
  | shr
  | lt
  | le
  | eq
  | ge
  | gt
  | ne
  | bitAnd
  | bitOr
  | bitXor
  | bAnd
  | bOr
  | atan2
  | maxF
  | minF
  deriving DecidableEq

/-- Modelled from the spec: semantics of the binary elements.  The
first argument is the operand that was pushed first (the left operand
of an operator, the first argument of a function).  The
two-argument arctangent computes the angle for second/first, the
documented swap of the ANSI C argument order.  Modulo, shifts and
bitwise operators truncate to integers toward zero, compute, and
convert back; comparisons and boolean operators yield exactly 1 or 0. -/
noncomputable def Op2.sem : Op2 → ℝ → ℝ → ℝ
  | .add, x, y => x + y
  | .sub, x, y => x - y
  | .mul, x, y => x * y
  | .div, x, y => x / y
  | .mod, x, y => ((Int.tmod (rtrunc x) (rtrunc y) : ℤ) : ℝ)
  | .pow, x, y => Real.rpow x y
  | .shl, x, y => ((rtrunc x * 2 ^ (rtrunc y).toNat : ℤ) : ℝ)
  | .shr, x, y => ((rtrunc x / 2 ^ (rtrunc y).toNat : ℤ) : ℝ)
  | .lt, x, y => if x < y then 1 else 0
  | .le, x, y => if x ≤ y then 1 else 0
  | .eq, x, y => if x = y then 1 else 0
  | .ge, x, y => if y ≤ x then 1 else 0
  | .gt, x, y => if y < x then 1 else 0
  | .ne, x, y => if x = y then 0 else 1
  | .bitAnd, x, y => ((Int.land (rtrunc x) (rtrunc y) : ℤ) : ℝ)
  | .bitOr, x, y => ((Int.lor (rtrunc x) (rtrunc y) : ℤ) : ℝ)
  | .bitXor, x, y => ((Int.xor (rtrunc x) (rtrunc y) : ℤ) : ℝ)
  | .bAnd, x, y => if x ≠ 0 ∧ y ≠ 0 then 1 else 0
  | .bOr, x, y => if x ≠ 0 ∨ y ≠ 0 then 1 else 0
  | .atan2, x, y => Real.arctan (y / x)
  | .maxF, x, y => max x y
  | .minF, x, y => min x y

/-- Modelled from the spec: one instruction of the compiled buffer.
A literal push carries its embedded value; a fetch or store names one
of the 12 variable slots A..L; condIf/condElse/condEnd are the
structural markers of the conditional operator. -/
inductive Instr where
  | lit (n k : ℕ)
  | cst (c : Op0)
  | fetch (v : Fin 12)
  | store (v : Fin 12)
  | rnd
  | op1 (f : Op1)
  | op2 (f : Op2)
  | condIf
  | condElse
  | condEnd
  deriving DecidableEq

/-- The embedded value of a numeric-literal instruction: the literal
n k denotes n divided by the k-th power of ten (the digit string with
the decimal point k places from the right). -/
noncomputable def litVal (n k : ℕ) : ℝ := (n : ℝ) / 10 ^ k

/-- A literal value that packs into the 4-byte integer payload:
an integral value below 2^31. -/
def litSmall (n k : ℕ) : Bool :=
  decide (n % 10 ^ k = 0) && decide (n / 10 ^ k < 2 ^ 31)

/-- Byte size of one packed instruction: one opcode byte, plus a
4-byte payload for an integer literal or an 8-byte payload for a
double literal. -/
def instrSize : Instr → ℕ
  | .lit n k => if litSmall n k then 5 else 9
  | _ => 1

/-- Byte size of a compiled buffer. -/
def codeSize (c : List Instr) : ℕ := (c.map instrSize).sum

/-- The fixed capacity of the runtime operand stack
(CALCPERFORM_STACK = 80). -/
def stackCap : ℕ := 80

/-- Expressions of the infix language, after parsing. -/
inductive Expr where
  | lit (n k : ℕ)
  | cst (c : Op0)
  | var (v : Fin 12)
  | rnd
  | op1 (f : Op1) (a : Expr)
  | op2 (f : Op2) (a b : Expr)
  | cond (c t e : Expr)
  deriving DecidableEq

/-- One semicolon-separated sub-expression: an optional assignment
target (some v for v := expr, none for the bare expression) and the
expression itself. -/
abbrev SubE := Option (Fin 12) × Expr

/-- A parsed expression list. -/
abbrev Prog := List SubE

/-- Code generation for one expression, emitting operands before the
operator that consumes them, and the condIf/condElse/condEnd markers
around the two branches of a conditional. -/
def flattenE : Expr → List Instr
  | .lit n k => [.lit n k]
  | .cst c => [.cst c]
  | .var v => [.fetch v]
  | .rnd => [.rnd]
  | .op1 f a => flattenE a ++ [.op1 f]
  | .op2 f a b => flattenE a ++ (flattenE b ++ [.op2 f])
  | .cond c t e =>
      flattenE c ++ (.condIf ::
        (flattenE t ++ (.condElse :: (flattenE e ++ [.condEnd]))))

/-- Code generation for one sub-expression: an assignment emits the
expression code followed by a store to its target. -/
def flattenS : SubE → List Instr
  | (none, e) => flattenE e
  | (some i, e) => flattenE e ++ [.store i]

/-- Code generation for the whole expression list. -/
def flattenP : Prog → List Instr
  | [] => []
  | s :: r => flattenS s ++ flattenP r

/-- Evaluator control mode: executing, scanning forward for the
condElse matching a condIf whose condition was false, or scanning
forward for the condEnd closing a finished true branch.  The counter
tracks the nesting of inner conditionals inside the skipped range. -/
inductive Md where
  | run
  | skipElse (d : ℕ)
  | skipEnd (d : ℕ)
  deriving DecidableEq

/-- Machine state of calcPerform: a pending error, the control mode,
the operand stack (top first), the 12 caller variable slots and the
index of the next value of the random stream. -/
structure MS where
  err : Option CalcErr
  md : Md
  stk : List ℝ
  vars : Fin 12 → ℝ
  k : ℕ

/-- Push helper for the evaluator: overflows once the operand stack
already holds stackCap results. -/
noncomputable def pushR (stk : List ℝ) (vars : Fin 12 → ℝ) (k : ℕ)
    (x : ℝ) : MS :=
  if stk.length < stackCap then ⟨none, .run, x :: stk, vars, k⟩
  else ⟨some .OVERFLOW, .run, stk, vars, k⟩

/-- Modelled from the spec: one step of the calcPerform stack machine
(the body of calcPerform is not in the sources).  In run mode each
instruction pushes a literal, constant, variable or random value,
pops one value into a variable slot, applies an operator to popped
operands, or begins a conditional; a false condition enters skipElse
mode, which scans instructions without executing them (so stores in
the untaken branch have no effect) until the matching condElse, and a
finished true branch enters skipEnd mode until the matching condEnd.
A pending error absorbs all further steps. -/
noncomputable def step (rnd : ℕ → ℝ) (s : MS) (i : Instr) : MS :=
  match s with
  | ⟨some e, md, stk, vars, k⟩ => ⟨some e, md, stk, vars, k⟩
  | ⟨none, .run, stk, vars, k⟩ =>
    match i, stk with
    | .lit n j, stk => pushR stk vars k (litVal n j)
    | .cst c, stk => pushR stk vars k c.sem
    | .fetch v, stk => pushR stk vars k (vars v)
    | .rnd, stk => pushR stk vars (k + 1) (rnd k)
    | .store v, x :: stk => ⟨none, .run, stk, Function.update vars v x, k⟩
    | .store _, [] => ⟨some .UNDERFLOW, .run, [], vars, k⟩
    | .op1 f, x :: stk => ⟨none, .run, f.sem x :: stk, vars, k⟩
    | .op1 _, [] => ⟨some .UNDERFLOW, .run, [], vars, k⟩
    | .op2 f, y :: x :: stk => ⟨none, .run, f.sem x y :: stk, vars, k⟩
    | .op2 _, stk => ⟨some .UNDERFLOW, .run, stk, vars, k⟩
    | .condIf, c :: stk =>
        if c = 0 then ⟨none, .skipElse 0, stk, vars, k⟩
        else ⟨none, .run, stk, vars, k⟩
    | .condIf, [] => ⟨some .UNDERFLOW, .run, [], vars, k⟩
    | .condElse, stk => ⟨none, .skipEnd 0, stk, vars, k⟩
    | .condEnd, stk => ⟨none, .run, stk, vars, k⟩
  | ⟨none, .skipElse d, stk, vars, k⟩ =>
    match i with
    | .condIf => ⟨none, .skipElse (d + 1), stk, vars, k⟩
    | .condElse =>
        if d = 0 then ⟨none, .run, stk, vars, k⟩
        else ⟨none, .skipElse d, stk, vars, k⟩
    | .condEnd =>
        if d = 0 then ⟨some .CONDITIONAL, .skipElse 0, stk, vars, k⟩
        else ⟨none, .skipElse (d - 1), stk, vars, k⟩
    | _ => ⟨none, .skipElse d, stk, vars, k⟩
  | ⟨none, .skipEnd d, stk, vars, k⟩ =>
    match i with
    | .condIf => ⟨none, .skipEnd (d + 1), stk, vars, k⟩
    | .condEnd =>
        if d = 0 then ⟨none, .run, stk, vars, k⟩
        else ⟨none, .skipEnd (d - 1), stk, vars, k⟩
    | _ => ⟨none, .skipEnd d, stk, vars, k⟩

/-- Run the machine over a buffer. -/
noncomputable def runC (rnd : ℕ → ℝ) (code : List Instr) (s : MS) : MS :=
  code.foldl (step rnd) s

/-- Modelled from the spec: calcPerform.  Walks the buffer once from
a fresh state; on success the single remaining stack entry is the
result and the final variable slots are returned to the caller
(assignments mutate them in place).  A leftover skip mode, an empty
final stack or extra final results are defensive errors that cannot
arise for buffers produced by a successful compile. -/
noncomputable def calcPerform (code : List Instr) (vars : Fin 12 → ℝ)
    (rnd : ℕ → ℝ) : Except CalcErr (ℝ × (Fin 12 → ℝ)) :=
  match runC rnd code ⟨none, .run, [], vars, 0⟩ with
  | ⟨some e, _, _, _, _⟩ => .error e
  | ⟨none, .run, [r], vars2, _⟩ => .ok (r, vars2)
  | ⟨none, .run, [], _, _⟩ => .error .UNDERFLOW
  | ⟨none, .run, _, _, _⟩ => .error .TOOMANY
  | ⟨none, _, _, _, _⟩ => .error .CONDITIONAL

/-- Static pop/push counts of one instruction, used by the compile
time simulation of the runtime stack depth.  condElse is counted as
consuming one value so that the linear scan over both branches of a
conditional reproduces the depth of either executed path. -/
def popPush : Instr → ℕ × ℕ
  | .lit _ _ => (0, 1)
  | .cst _ => (0, 1)
  | .fetch _ => (0, 1)
  | .rnd => (0, 1)
  | .store _ => (1, 0)
  | .op1 _ => (1, 1)
  | .op2 _ => (2, 1)
  | .condIf => (1, 0)
  | .condElse => (1, 0)
  | .condEnd => (0, 0)

/-- One step of the compile-time depth simulation: underflow if the
depth cannot supply the popped operands, overflow if the resulting
depth would exceed the fixed stack capacity. -/
def linStep (d : ℕ) (i : Instr) : Except CalcErr ℕ :=
  if d < (popPush i).1 then .error .UNDERFLOW
  else if stackCap < d - (popPush i).1 + (popPush i).2 then .error .OVERFLOW
  else .ok (d - (popPush i).1 + (popPush i).2)

/-- Modelled from the spec: the static stack-depth simulation run by
the compiler over the emitted instructions. -/
def linSim : List Instr → ℕ → Except CalcErr ℕ
  | [], d => .ok d
  | i :: r, d =>
    match linStep d i with
    | .error e => .error e
    | .ok d2 => linSim r d2

/-- Modelled from the spec: the forward scan of calcArgUsage over a
compiled buffer, carried out with three bitmaps: the slots stored so
far, the inputs found, and the stores found. -/
def argUsageA : List Instr → ℕ → ℕ → ℕ → ℕ × ℕ
  | [], _, ins, sts => (ins, sts)
  | .fetch v :: r, w, ins, sts =>
      argUsageA r w (if w.testBit v.val then ins else ins ||| 2 ^ v.val) sts
  | .store v :: r, w, ins, sts =>
      argUsageA r (w ||| 2 ^ v.val) ins (sts ||| 2 ^ v.val)
  | _ :: r, w, ins, sts => argUsageA r w ins sts

/-- Modelled from the spec: calcArgUsage.  Returns the pair of
bitmaps (inputs, stores): bit i of inputs is set when slot i is read
somewhere in the buffer before any store to slot i earlier in the
scan, bit i of stores when some store targets slot i.  (The C
interface writes each bitmap through an optional pointer; the model
always returns both.) -/
def calcArgUsage (code : List Instr) : ℕ × ℕ := argUsageA code 0 0 0

/-- Nesting scan for conditional markers: counts condIf up and
condEnd down and refuses a condElse or condEnd at depth zero.  Code
that scans from zero back to zero is exactly the code that a forward
skip passes over without leaving skip mode. -/
def condBal : List Instr → ℕ → Option ℕ
  | [], d => some d
  | .condIf :: r, d => condBal r (d + 1)
  | .condElse :: r, d => if d = 0 then none else condBal r d
  | .condEnd :: r, d => if d = 0 then none else condBal r (d - 1)
  | _ :: r, d => condBal r d

/-- Code whose conditional markers are completely matched inside it. -/
def CondClosed (c : List Instr) : Prop := condBal c 0 = some 0

/-! ### Lexer -/

/-- Tokens of the infix language. -/
inductive Tok where
  | num (n k : ℕ)
  | varT (v : Fin 12)
  | cstT (c : Op0)
  | rndT
  | f1 (f : Op1)
  | f2 (f : Op2)
  | plus
  | minus
  | star
  | slash
  | percent
  | powT
  | ltT
  | leT
  | eqT
  | geT
  | gtT
  | neT
  | ampT
  | pipeT
  | xorT
  | tildeT
  | bangT
  | andT
  | orT
  | shlT
  | shrT
  | lpar
  | rpar
  | comma
  | semi
  | assignT
  | quest
  | colon
  deriving DecidableEq

/-- Decimal digit test. -/
def isDigC (c : Char) : Bool := decide ('0' ≤ c) && decide (c ≤ '9')

/-- Letter test (both cases). -/
def isAlpC (c : Char) : Bool :=
  (decide ('a' ≤ c) && decide (c ≤ 'z')) ||
  (decide ('A' ≤ c) && decide (c ≤ 'Z'))

/-- Letter-or-digit test, for the tail of a word such as atan2 or d2r. -/
def isWordC (c : Char) : Bool := isAlpC c || isDigC c

/-- Map an upper-case letter to lower case (the language is fully
case independent). -/
def lowerC (c : Char) : Char :=
  if decide ('A' ≤ c) && decide (c ≤ 'Z') then Char.ofNat (c.toNat + 32)
  else c

/-- Numeric value of a digit string. -/
def digsVal (ds : List Char) : ℕ :=
  ds.foldl (fun a c => 10 * a + (c.toNat - 48)) 0

/-- Numeric token of an integer part and a fraction part: the digits
joined as the numerator, the length of the fraction as the power of
ten of the denominator. -/
def mkNum (ip fp : List Char) : Tok :=
  .num (digsVal ip * 10 ^ fp.length + digsVal fp) fp.length

/-- Modelled from the spec: resolution of a (lower-cased) word to a
variable letter, named constant, function name or keyword operator of
the fixed table; any other word is a syntax error. -/
def wordTok (s : String) : Except CalcErr Tok :=
  match s with
  | "a" => .ok (.varT 0)
  | "b" => .ok (.varT 1)
  | "c" => .ok (.varT 2)
  | "d" => .ok (.varT 3)
  | "e" => .ok (.varT 4)
  | "f" => .ok (.varT 5)
  | "g" => .ok (.varT 6)
  | "h" => .ok (.varT 7)
  | "i" => .ok (.varT 8)
  | "j" => .ok (.varT 9)
  | "k" => .ok (.varT 10)
  | "l" => .ok (.varT 11)
  | "pi" => .ok (.cstT .pi)
  | "d2r" => .ok (.cstT .d2r)
  | "r2d" => .ok (.cstT .r2d)
  | "rndm" => .ok .rndT
  | "abs" => .ok (.f1 .abs)
  | "exp" => .ok (.f1 .exp)
  | "log" => .ok (.f1 .log10)
  | "ln" => .ok (.f1 .ln)
  | "loge" => .ok (.f1 .ln)
  | "sqr" => .ok (.f1 .sqrt)
  | "sqrt" => .ok (.f1 .sqrt)
  | "sin" => .ok (.f1 .sin)
  | "cos" => .ok (.f1 .cos)
  | "tan" => .ok (.f1 .tan)
  | "asin" => .ok (.f1 .asin)
  | "acos" => .ok (.f1 .acos)
  | "atan" => .ok (.f1 .atan)
  | "sinh" => .ok (.f1 .sinh)
  | "cosh" => .ok (.f1 .cosh)
  | "tanh" => .ok (.f1 .tanh)
  | "ceil" => .ok (.f1 .ceil)
  | "floor" => .ok (.f1 .floor)
  | "nint" => .ok (.f1 .nint)
  | "atan2" => .ok (.f2 .atan2)
  | "max" => .ok (.f2 .maxF)
  | "min" => .ok (.f2 .minF)
  | "and" => .ok .ampT
  | "or" => .ok .pipeT
  | "xor" => .ok .xorT
  | "not" => .ok .tildeT
  | _ => .error .SYNTAX

/-- Operator lexing: the two-character operators are recognized
before their one-character heads; any unknown character is a syntax
error.  Returns the token and the remaining characters. -/
def opTok : Char → List Char → Except CalcErr (Tok × List Char) :=
  fun c cs =>
  match c, cs with
  | ':', '=' :: r => .ok (.assignT, r)
  | ':', _ => .ok (.colon, cs)
  | '*', '*' :: r => .ok (.powT, r)
  | '*', _ => .ok (.star, cs)
  | '<', '=' :: r => .ok (.leT, r)
  | '<', '<' :: r => .ok (.shlT, r)
  | '<', _ => .ok (.ltT, cs)
  | '>', '=' :: r => .ok (.geT, r)
  | '>', '>' :: r => .ok (.shrT, r)
  | '>', _ => .ok (.gtT, cs)
  | '=', '=' :: r => .ok (.eqT, r)
  | '=', _ => .ok (.eqT, cs)
  | '!', '=' :: r => .ok (.neT, r)
  | '!', _ => .ok (.bangT, cs)
  | '&', '&' :: r => .ok (.andT, r)
  | '&', _ => .ok (.ampT, cs)
  | '|', '|' :: r => .ok (.orT, r)
  | '|', _ => .ok (.pipeT, cs)
  | '+', _ => .ok (.plus, cs)
  | '-', _ => .ok (.minus, cs)
  | '/', _ => .ok (.slash, cs)
  | '%', _ => .ok (.percent, cs)
  | '^', _ => .ok (.powT, cs)
  | '#', _ => .ok (.neT, cs)
  | '~', _ => .ok (.tildeT, cs)
  | '(', _ => .ok (.lpar, cs)
  | ')', _ => .ok (.rpar, cs)
  | ',', _ => .ok (.comma, cs)
  | ';', _ => .ok (.semi, cs)
  | '?', _ => .ok (.quest, cs)
  | _, _ => .error .SYNTAX

/-- Prepend a token to a lexer result, propagating errors. -/
def consTok (t : Tok) (x : Except CalcErr (List Tok)) :
    Except CalcErr (List Tok) :=
  match x with
  | .error e => .error e
  | .ok ts => .ok (t :: ts)

/-- Modelled from the spec: the lexer (fuel-driven; the fuel is an
upper bound on the number of characters and never runs out when
called through calcCompile).  Whitespace separates tokens, a numeric
literal is digits with an optional fraction, words are case
independent, and the two-character operators are recognized before
their one-character heads. -/
def lexA : ℕ → List Char → Except CalcErr (List Tok)
  | 0, _ => .error .INTERNAL
  | _ + 1, [] => .ok []
  | f + 1, c :: cs =>
    if c = ' ' ∨ c = '\t' ∨ c = '\n' ∨ c = '\r' then lexA f cs
    else if isDigC c ∨ c = '.' then
      match (c :: cs).dropWhile isDigC with
      | '.' :: r2 =>
        if (c :: cs).takeWhile isDigC = [] ∧ r2.takeWhile isDigC = [] then
          .error .BAD_LITERAL
        else
          match lexA f (r2.dropWhile isDigC) with
          | .error e => .error e
          | .ok ts =>
            .ok (mkNum ((c :: cs).takeWhile isDigC)
              (r2.takeWhile isDigC) :: ts)
      | r1 =>
        match lexA f r1 with
        | .error e => .error e
        | .ok ts => .ok (mkNum ((c :: cs).takeWhile isDigC) [] :: ts)
    else if isAlpC c then
      match wordTok (String.mk (((c :: cs).takeWhile isWordC).map lowerC)) with
      | .error e => .error e
      | .ok t =>
        match lexA f ((c :: cs).dropWhile isWordC) with
        | .error e => .error e
        | .ok ts => .ok (t :: ts)
    else
      match opTok c cs with
      | .error e => .error e
      | .ok (t, r) => consTok t (lexA f r)

/-! ### Parser

Precedence-climbing recursive descent, with levels numbered from 0
(boolean or, the loosest binary level) to 9 (the power operators),
then the right-associative unary level and the primary forms.  The
conditional operator sits above level 0 and the assignment marker is
handled at the sub-expression level only, per the documented grammar. -/

/-- Binary operator table per precedence level. -/
def lvlOps : ℕ → Tok → Option Op2 := fun lvl t =>
  match lvl, t with
  | 0, .orT => some .bOr
  | 1, .andT => some .bAnd
  | 2, .pipeT => some .bitOr
  | 3, .xorT => some .bitXor
  | 4, .ampT => some .bitAnd
  | 5, .ltT => some .lt
  | 5, .leT => some .le
  | 5, .eqT => some .eq
  | 5, .geT => some .ge
  | 5, .gtT => some .gt
  | 5, .neT => some .ne
  | 6, .shlT => some .shl
  | 6, .shrT => some .shr
  | 7, .plus => some .add
  | 7, .minus => some .sub
  | 8, .star => some .mul
  | 8, .slash => some .div
  | 8, .percent => some .mod
  | 9, .powT => some .pow
  | _, _ => none

mutual

/-- Parse a full expression: a level-0 chain optionally followed by
the conditional operator, whose branches are again full expressions
(right-associative nesting). -/
def pCondE : ℕ → List Tok → Except CalcErr (Expr × List Tok)
  | 0, _ => .error .INTERNAL
  | f + 1, ts =>
    match pBin 0 f ts with
    | .error e => .error e
    | .ok (c, r) =>
      match r with
      | .quest :: r2 =>
        match pCondE f r2 with
        | .error e => .error e
        | .ok (t, r3) =>
          match r3 with
          | .colon :: r4 =>
            match pCondE f r4 with
            | .error e => .error e
            | .ok (g, r5) => .ok (.cond c t g, r5)
          | _ => .error .CONDITIONAL
      | _ => .ok (c, r)

/-- Parse one left-associative binary level: first operand from the
next tighter level, then a fold over the operators of this level. -/
def pBin : ℕ → ℕ → List Tok → Except CalcErr (Expr × List Tok)
  | _, 0, _ => .error .INTERNAL
  | lvl, f + 1, ts =>
    match (if 9 ≤ lvl then pUn f ts else pBin (lvl + 1) f ts) with
    | .error e => .error e
    | .ok (e1, r1) => pBinL lvl f e1 r1

/-- The operator fold of one binary level. -/
def pBinL : ℕ → ℕ → Expr → List Tok → Except CalcErr (Expr × List Tok)
  | _, 0, _, _ => .error .INTERNAL
  | lvl, f + 1, acc, ts =>
    match ts with
    | t :: r =>
      match lvlOps lvl t with
      | some o =>
        match (if 9 ≤ lvl then pUn f r else pBin (lvl + 1) f r) with
        | .error e => .error e
        | .ok (e2, r2) => pBinL lvl f (.op2 o acc e2) r2
      | none => .ok (acc, ts)
    | [] => .ok (acc, ts)

/-- The right-associative unary level: unary minus, boolean not and
bitwise not, binding tighter than the power operators. -/
def pUn : ℕ → List Tok → Except CalcErr (Expr × List Tok)
  | 0, _ => .error .INTERNAL
  | f + 1, ts =>
    match ts with
    | .minus :: r =>
      match pUn f r with
      | .error e => .error e
      | .ok (a, r2) => .ok (.op1 .neg a, r2)
    | .bangT :: r =>
      match pUn f r with
      | .error e => .error e
      | .ok (a, r2) => .ok (.op1 .lnot a, r2)
    | .tildeT :: r =>
      match pUn f r with
      | .error e => .error e
      | .ok (a, r2) => .ok (.op1 .bnot a, r2)
    | _ => pPrim f ts

/-- Primary forms: literals, variables, constants, rndm, function
calls with parenthesized arguments, and parenthesized
sub-expressions.  A missing operand is INCOMPLETE, an argument
separator outside a function call is BAD_SEPERATOR, and a
parenthesis still open at the end of the string is PAREN_OPEN. -/
def pPrim : ℕ → List Tok → Except CalcErr (Expr × List Tok)
  | 0, _ => .error .INTERNAL
  | f + 1, ts =>
    match ts with
    | .num n k :: r => .ok (.lit n k, r)
    | .varT v :: r => .ok (.var v, r)
    | .cstT c :: r => .ok (.cst c, r)
    | .rndT :: r => .ok (.rnd, r)
    | .f1 g :: .lpar :: r =>
      match pCondE f r with
      | .error e => .error e
      | .ok (a, r2) =>
        match r2 with
        | .rpar :: r3 => .ok (.op1 g a, r3)
        | [] => .error .PAREN_OPEN
        | _ => .error .SYNTAX
    | .f1 _ :: _ => .error .SYNTAX
    | .f2 g :: .lpar :: r =>
      match pCondE f r with
      | .error e => .error e
      | .ok (a, r2) =>
        match r2 with
        | .comma :: r3 =>
          match pCondE f r3 with
          | .error e => .error e
          | .ok (b, r4) =>
            match r4 with
            | .rpar :: r5 => .ok (.op2 g a b, r5)
            | [] => .error .PAREN_OPEN
            | _ => .error .SYNTAX
        | [] => .error .PAREN_OPEN
        | _ => .error .SYNTAX
    | .f2 _ :: _ => .error .SYNTAX
    | .lpar :: r =>
      match pCondE f r with
      | .error e => .error e
      | .ok (a, r2) =>
        match r2 with
        | .rpar :: r3 => .ok (a, r3)
        | .comma :: _ => .error .BAD_SEPERATOR
        | [] => .error .PAREN_OPEN
        | _ => .error .SYNTAX
    | _ => .error .INCOMPLETE

end

/-- Parse one sub-expression: a variable immediately followed by the
assignment marker is an assignment target, anything else is a bare
expression. -/
def pSub (f : ℕ) (ts : List Tok) : Except CalcErr (SubE × List Tok) :=
  match ts with
  | .varT v :: .assignT :: r =>
    match pCondE f r with
    | .error e => .error e
    | .ok (e, r2) => .ok ((some v, e), r2)
  | _ =>
    match pCondE f ts with
    | .error e => .error e
    | .ok (e, r2) => .ok ((none, e), r2)

/-- Parse the semicolon-separated expression list.  A token left over
after a sub-expression signals the documented error for its kind: a
close parenthesis without an open one, a comma outside a function
argument list, an unmatched conditional colon, or a misplaced
assignment marker (an assignment target that is not a single
variable letter). -/
def pProg : ℕ → List Tok → Except CalcErr Prog
  | 0, _ => .error .INTERNAL
  | f + 1, ts =>
    match pSub f ts with
    | .error e => .error e
    | .ok (se, r) =>
      match r with
      | [] => .ok [se]
      | .semi :: r2 =>
        match pProg f r2 with
        | .error e => .error e
        | .ok p => .ok (se :: p)
      | .rpar :: _ => .error .PAREN_NOT_OPEN
      | .comma :: _ => .error .BAD_SEPERATOR
      | .colon :: _ => .error .CONDITIONAL
      | .assignT :: _ => .error .SYNTAX
      | _ => .error .SYNTAX

/-- Number of bare (non-assignment) sub-expressions. -/
def countBare (p : Prog) : ℕ := (p.filter (fun se => se.1.isNone)).length

/-- Parse a token list into an expression list and enforce the rule
that exactly one sub-expression is bare; zero or several bare
sub-expressions fail with BAD_ASSIGNMENT. -/
def parseToks (ts : List Tok) : Except CalcErr Prog :=
  match pProg (16 * ts.length + 64) ts with
  | .error e => .error e
  | .ok p => if countBare p = 1 then .ok p else .error .BAD_ASSIGNMENT

/-- Lex and parse an infix string; an empty token list is the
NULL_ARG error. -/
def calcParse (s : String) : Except CalcErr Prog :=
  match lexA (s.data.length + 1) s.data with
  | .error e => .error e
  | .ok [] => .error .NULL_ARG
  | .ok ts => parseToks ts

/-- Modelled from the spec: the compiler entry point (the C function
that turns an infix string into a compiled buffer; its body is not in
the sources).  It parses the string, emits the instruction list, and
runs the static stack-depth simulation, which rejects with OVERFLOW
or UNDERFLOW any expression whose runtime depth would violate the
fixed capacity.  The final simulated depth of an accepted expression
list is necessarily 1 (its one bare sub-expression). -/
def calcCompile (s : String) : Except CalcErr (List Instr) :=
  match calcParse s with
  | .error e => .error e
  | .ok p =>
    match linSim (flattenP p) 0 with
    | .error e => .error e
    | .ok d => if d = 1 then .ok (flattenP p) else .error .INTERNAL

/-! ### Denotational semantics -/

/-- Modelled from the spec: direct mathematical evaluation of one
expression under the documented operator semantics, threading the
random stream index; only the branch selected by a conditional is
evaluated. -/
noncomputable def evalE (rnd : ℕ → ℝ) : Expr → (Fin 12 → ℝ) → ℕ → ℝ × ℕ
  | .lit n j, _, k => (litVal n j, k)
  | .cst c, _, k => (c.sem, k)
  | .var v, vars, k => (vars v, k)
  | .rnd, _, k => (rnd k, k + 1)
  | .op1 f a, vars, k =>
    match evalE rnd a vars k with
    | (x, k1) => (f.sem x, k1)
  | .op2 f a b, vars, k =>
    match evalE rnd a vars k with
    | (x, k1) =>
      match evalE rnd b vars k1 with
      | (y, k2) => (f.sem x y, k2)
  | .cond c t e, vars, k =>
    match evalE rnd c vars k with
    | (cv, k1) => if cv = 0 then evalE rnd e vars k1 else evalE rnd t vars k1

/-- Modelled from the spec: direct evaluation of an expression list.
Sub-expressions run left to right; an assignment updates its variable
slot (visible to the later sub-expressions), and the values of the
bare sub-expressions are collected (most recent first, matching the
machine stack). -/
noncomputable def evalP (rnd : ℕ → ℝ) :
    Prog → (Fin 12 → ℝ) → ℕ → List ℝ × (Fin 12 → ℝ) × ℕ
  | [], vars, k => ([], vars, k)
  | (none, e) :: r, vars, k =>
    match evalE rnd e vars k with
    | (x, k1) =>
      match evalP rnd r vars k1 with
      | (l, v2, k2) => (l ++ [x], v2, k2)
  | (some i, e) :: r, vars, k =>
    match evalE rnd e vars k with
    | (x, k1) => evalP rnd r (Function.update vars i x) k1

/-- The value of the one bare sub-expression of an expression list. -/
noncomputable def progVal (rnd : ℕ → ℝ) (p : Prog) (vars : Fin 12 → ℝ) : ℝ :=
  (evalP rnd p vars 0).1.headD 0

/-- The final variable slots after direct evaluation of
an expression list. -/
noncomputable def progVars (rnd : ℕ → ℝ) (p : Prog) (vars : Fin 12 → ℝ) :
    Fin 12 → ℝ :=
  (evalP rnd p vars 0).2.1

/-- Lower bound on the number of source characters of one token: a
numeric literal that packs into the 5-byte integer form needs at
least 1 character, any other numeric literal at least 2 (a fraction
means a decimal point is present, and a value of 2^31 or more needs
at least ten digits); every other token needs at least 1 character. -/
def tokW : Tok → ℕ
  | .num n k => if litSmall n k then 1 else 2
  | _ => 1

/-- Total character lower bound of a token list. -/
def toksW (ts : List Tok) : ℕ := (ts.map tokW).sum

/-- Slot v is read somewhere in the buffer before any store to it
earlier in the scan. -/
def readsBefore (code : List Instr) (v : Fin 12) : Prop :=
  ∃ l1 l2, code = l1 ++ .fetch v :: l2 ∧ .store v ∉ l1

/-- An expression whose simulated operand-stack depth reaches 81:
eighty nested additions keep eighty pending operands on the stack
while the innermost literal is pushed. -/
def deepStr : String :=
  String.join (List.replicate 80 "1+(") ++ "1" ++
    String.mk (List.replicate 80 ')')

/-! ### Basic machine lemmas -/

theorem runC_nil (rnd : ℕ → ℝ) (s : MS) : runC rnd [] s = s := rfl

theorem runC_cons (rnd : ℕ → ℝ) (i : Instr) (code : List Instr) (s : MS) :
    runC rnd (i :: code) s = runC rnd code (step rnd s i) := rfl

theorem runC_append (rnd : ℕ → ℝ) (a b : List Instr) (s : MS) :
    runC rnd (a ++ b) s = runC rnd b (runC rnd a s) :=
  List.foldl_append _ _ _ _

theorem step_err (rnd : ℕ → ℝ) (e : CalcErr) (md : Md) (stk : List ℝ)
    (vars : Fin 12 → ℝ) (k : ℕ) (i : Instr) :
    step rnd ⟨some e, md, stk, vars, k⟩ i = ⟨some e, md, stk, vars, k⟩ := rfl

theorem runC_err (rnd : ℕ → ℝ) (code : List Instr) (e : CalcErr) (md : Md)
    (stk : List ℝ) (vars : Fin 12 → ℝ) (k : ℕ) :
    runC rnd code ⟨some e, md, stk, vars, k⟩ = ⟨some e, md, stk, vars, k⟩ := by
  induction code with
  | nil => rfl
  | cons i r ih => rw [runC_cons, step_err, ih]

/-! ### Skip-mode transparency over balanced code -/

theorem condBal_append (a b : List Instr) (d : ℕ) :
    condBal (a ++ b) d =
      match condBal a d with
      | some d2 => condBal b d2
      | none => none := by
  induction a generalizing d with
  | nil => rfl
  | cons i r ih =>
    cases i <;> simp only [condBal, List.cons_append, ih] <;> split <;> simp_all

theorem skipElse_trans (rnd : ℕ → ℝ) (code : List Instr) :
    ∀ c c2 j stk vars k, condBal code c = some c2 →
    runC rnd code ⟨none, .skipElse (j + c), stk, vars, k⟩ =
      ⟨none, .skipElse (j + c2), stk, vars, k⟩ := by
  induction code with
  | nil => intro c c2 j stk vars k h; cases h; rfl
  | cons i r ih =>
    intro c c2 j stk vars k h
    cases i with
    | condIf =>
      rw [runC_cons]
      have : j + c + 1 = j + (c + 1) := by omega
      simp only [step, this]
      exact ih (c + 1) c2 j stk vars k h
    | condElse =>
      simp only [condBal] at h
      split at h
      · exact absurd h (by simp)
      · rw [runC_cons]
        have hc : ¬ (j + c = 0) := by omega
        simp only [step, if_neg hc]
        exact ih c c2 j stk vars k h
    | condEnd =>
      simp only [condBal] at h
      split at h
      · exact absurd h (by simp)
      · rw [runC_cons]
        have hc : ¬ (j + c = 0) := by omega
        have hd : j + c - 1 = j + (c - 1) := by omega
        simp only [step, if_neg hc, hd]
        exact ih (c - 1) c2 j stk vars k h
    | lit q => rw [runC_cons]; exact ih c c2 j stk vars k h
    | cst q => rw [runC_cons]; exact ih c c2 j stk vars k h
    | fetch v => rw [runC_cons]; exact ih c c2 j stk vars k h
    | store v => rw [runC_cons]; exact ih c c2 j stk vars k h
    | rnd => rw [runC_cons]; exact ih c c2 j stk vars k h
    | op1 f => rw [runC_cons]; exact ih c c2 j stk vars k h
    | op2 f => rw [runC_cons]; exact ih c c2 j stk vars k h

theorem skipEnd_trans (rnd : ℕ → ℝ) (code : List Instr) :
    ∀ c c2 j stk vars k, condBal code c = some c2 →
    runC rnd code ⟨none, .skipEnd (j + c), stk, vars, k⟩ =
      ⟨none, .skipEnd (j + c2), stk, vars, k⟩ := by
  induction code with
  | nil => intro c c2 j stk vars k h; cases h; rfl
  | cons i r ih =>
    intro c c2 j stk vars k h
    cases i with
    | condIf =>
      rw [runC_cons]
      have : j + c + 1 = j + (c + 1) := by omega
      simp only [step, this]
      exact ih (c + 1) c2 j stk vars k h
    | condElse =>
      simp only [condBal] at h
      split at h
      · exact absurd h (by simp)
      · rw [runC_cons]
        simp only [step]
        exact ih c c2 j stk vars k h
    | condEnd =>
      simp only [condBal] at h
      split at h
      · exact absurd h (by simp)
      · rw [runC_cons]
        have hc : ¬ (j + c = 0) := by omega
        have hd : j + c - 1 = j + (c - 1) := by omega
        simp only [step, if_neg hc, hd]
        exact ih (c - 1) c2 j stk vars k h
    | lit q => rw [runC_cons]; exact ih c c2 j stk vars k h
    | cst q => rw [runC_cons]; exact ih c c2 j stk vars k h
    | fetch v => rw [runC_cons]; exact ih c c2 j stk vars k h
    | store v => rw [runC_cons]; exact ih c c2 j stk vars k h
    | rnd => rw [runC_cons]; exact ih c c2 j stk vars k h
    | op1 f => rw [runC_cons]; exact ih c c2 j stk vars k h
    | op2 f => rw [runC_cons]; exact ih c c2 j stk vars k h

theorem condBal_append_ok {a : List Instr} {d d2 : ℕ}
    (h : condBal a d = some d2) (b : List Instr) :
    condBal (a ++ b) d = condBal b d2 := by
  simp [condBal_append, h]

theorem flattenE_condBal (e : Expr) : ∀ d, condBal (flattenE e) d = some d := by
  induction e with
  | lit n j => intro d; rfl
  | cst c => intro d; rfl
  | var v => intro d; rfl
  | rnd => intro d; rfl
  | op1 f a iha =>
    intro d
    rw [flattenE, condBal_append_ok (iha d)]
    rfl
  | op2 f a b iha ihb =>
    intro d
    rw [flattenE, condBal_append_ok (iha d), condBal_append_ok (ihb d)]
    rfl
  | cond c t e ihc iht ihe =>
    intro d
    rw [flattenE, condBal_append_ok (ihc d)]
    show condBal (flattenE t ++ (.condElse :: (flattenE e ++ [.condEnd]))) (d + 1) = some d
    rw [condBal_append_ok (iht (d + 1))]
    show (if d + 1 = 0 then none else condBal (flattenE e ++ [.condEnd]) (d + 1)) = some d
    rw [if_neg (Nat.succ_ne_zero d), condBal_append_ok (ihe (d + 1))]
    show (if d + 1 = 0 then none else condBal [] (d + 1 - 1)) = some d
    rw [if_neg (Nat.succ_ne_zero d)]
    simp [condBal]

theorem flattenE_skipElse (rnd : ℕ → ℝ) (e : Expr) (j : ℕ) (stk : List ℝ)
    (vars : Fin 12 → ℝ) (k : ℕ) :
    runC rnd (flattenE e) ⟨none, .skipElse j, stk, vars, k⟩ =
      ⟨none, .skipElse j, stk, vars, k⟩ := by
  have h := skipElse_trans rnd (flattenE e) 0 0 j stk vars k (flattenE_condBal e 0)
  simpa using h

theorem flattenE_skipEnd (rnd : ℕ → ℝ) (e : Expr) (j : ℕ) (stk : List ℝ)
    (vars : Fin 12 → ℝ) (k : ℕ) :
    runC rnd (flattenE e) ⟨none, .skipEnd j, stk, vars, k⟩ =
      ⟨none, .skipEnd j, stk, vars, k⟩ := by
  have h := skipEnd_trans rnd (flattenE e) 0 0 j stk vars k (flattenE_condBal e 0)
  simpa using h

/-! ### The compile-time depth simulation -/

theorem linSim_append (a b : List Instr) (d : ℕ) :
    linSim (a ++ b) d =
      match linSim a d with
      | .ok d2 => linSim b d2
      | .error e => .error e := by
  induction a generalizing d with
  | nil => rfl
  | cons i r ih =>
    simp only [List.cons_append, linSim]
    cases linStep d i with
    | error e => rfl
    | ok d2 => exact ih d2

theorem linStep_ok {d d2 : ℕ} {i : Instr} (h : linStep d i = .ok d2) :
    (popPush i).1 ≤ d ∧ d - (popPush i).1 + (popPush i).2 ≤ stackCap ∧
      d2 = d - (popPush i).1 + (popPush i).2 := by
  unfold linStep at h
  split at h
  · exact absurd h (by simp)
  · split at h
    · exact absurd h (by simp)
    · cases h
      omega

theorem linStep_mk {d : ℕ} {i : Instr} (h1 : (popPush i).1 ≤ d)
    (h2 : d - (popPush i).1 + (popPush i).2 ≤ stackCap) :
    linStep d i = .ok (d - (popPush i).1 + (popPush i).2) := by
  unfold linStep
  rw [if_neg (by omega), if_neg (by omega)]

theorem linSim_cons_ok {i : Instr} {r : List Instr} {d d2 : ℕ}
    (h : linSim (i :: r) d = .ok d2) :
    ∃ dm, linStep d i = .ok dm ∧ linSim r dm = .ok d2 := by
  rw [linSim] at h
  split at h
  · exact absurd h (by simp)
  · exact ⟨_, by assumption, h⟩

theorem linSim_append_ok {a : List Instr} {d dm : ℕ}
    (h : linSim a d = .ok dm) (b : List Instr) :
    linSim (a ++ b) d = linSim b dm := by
  rw [linSim_append, h]

theorem linSim_append_inv {a b : List Instr} {d d2 : ℕ}
    (h : linSim (a ++ b) d = .ok d2) :
    ∃ dm, linSim a d = .ok dm ∧ linSim b dm = .ok d2 := by
  rw [linSim_append] at h
  split at h
  · exact ⟨_, by assumption, h⟩
  · exact absurd h (by simp)

theorem linSim_flattenE_depth (e : Expr) :
    ∀ d d2, linSim (flattenE e) d = .ok d2 → d2 = d + 1 := by
  induction e with
  | lit n j =>
    intro d d2 h
    obtain ⟨dm, h1, h2⟩ := linSim_cons_ok h
    obtain ⟨-, -, h3⟩ := linStep_ok h1
    cases h2
    simp only [popPush] at h3
    omega
  | cst c =>
    intro d d2 h
    obtain ⟨dm, h1, h2⟩ := linSim_cons_ok h
    obtain ⟨-, -, h3⟩ := linStep_ok h1
    cases h2
    simp only [popPush] at h3
    omega
  | var v =>
    intro d d2 h
    obtain ⟨dm, h1, h2⟩ := linSim_cons_ok h
    obtain ⟨-, -, h3⟩ := linStep_ok h1
    cases h2
    simp only [popPush] at h3
    omega
  | rnd =>
    intro d d2 h
    obtain ⟨dm, h1, h2⟩ := linSim_cons_ok h
    obtain ⟨-, -, h3⟩ := linStep_ok h1
    cases h2
    simp only [popPush] at h3
    omega
  | op1 f a iha =>
    intro d d2 h
    rw [flattenE] at h
    obtain ⟨dm, ha, h1⟩ := linSim_append_inv h
    have h3 := iha d dm ha
    subst h3
    obtain ⟨dn, h4, h5⟩ := linSim_cons_ok h1
    obtain ⟨-, -, h6⟩ := linStep_ok h4
    cases h5
    simp only [popPush] at h6
    omega
  | op2 f a b iha ihb =>
    intro d d2 h
    rw [flattenE] at h
    obtain ⟨dm, ha, h1⟩ := linSim_append_inv h
    have h3 := iha d dm ha
    subst h3
    obtain ⟨dn, hb, h2⟩ := linSim_append_inv h1
    have h4 := ihb (d + 1) dn hb
    subst h4
    obtain ⟨dp, h5, h6⟩ := linSim_cons_ok h2
    obtain ⟨-, -, h7⟩ := linStep_ok h5
    cases h6
    simp only [popPush] at h7
    omega
  | cond c t e ihc iht ihe =>
    intro d d2 h
    rw [flattenE] at h
    obtain ⟨dm, hc, h1⟩ := linSim_append_inv h
    have h3 := ihc d dm hc
    obtain ⟨dn, h4, h5⟩ := linSim_cons_ok h1
    obtain ⟨-, -, h6⟩ := linStep_ok h4
    simp only [popPush] at h6
    have hn : dn = d := by omega
    rw [hn] at h5
    obtain ⟨dp, hstep2, h7⟩ := linSim_append_inv h5
    have h8 := iht d dp hstep2
    obtain ⟨dq, h9, h10⟩ := linSim_cons_ok h7
    obtain ⟨-, -, h11⟩ := linStep_ok h9
    simp only [popPush] at h11
    have hq : dq = d := by omega
    rw [hq] at h10
    obtain ⟨dr, hstep3, h12⟩ := linSim_append_inv h10
    have h13 := ihe d dr hstep3
    obtain ⟨ds, h14, h15⟩ := linSim_cons_ok h12
    obtain ⟨-, -, h16⟩ := linStep_ok h14
    cases h15
    simp only [popPush] at h16
    omega

/-! ### Step-shape lemmas -/

theorem pushR_lt {stk : List ℝ} (vars : Fin 12 → ℝ) (k : ℕ) (x : ℝ)
    (h : stk.length < stackCap) :
    pushR stk vars k x = ⟨none, .run, x :: stk, vars, k⟩ := if_pos h

theorem step_lit (rnd : ℕ → ℝ) (stk : List ℝ) (vars : Fin 12 → ℝ) (k : ℕ)
    (n j : ℕ) :
    step rnd ⟨none, .run, stk, vars, k⟩ (.lit n j) =
      pushR stk vars k (litVal n j) := rfl

theorem step_cst (rnd : ℕ → ℝ) (stk : List ℝ) (vars : Fin 12 → ℝ) (k : ℕ)
    (c : Op0) :
    step rnd ⟨none, .run, stk, vars, k⟩ (.cst c) = pushR stk vars k c.sem := rfl

theorem step_fetch (rnd : ℕ → ℝ) (stk : List ℝ) (vars : Fin 12 → ℝ) (k : ℕ)
    (v : Fin 12) :
    step rnd ⟨none, .run, stk, vars, k⟩ (.fetch v) =
      pushR stk vars k (vars v) := rfl

theorem step_rnd (rnd : ℕ → ℝ) (stk : List ℝ) (vars : Fin 12 → ℝ) (k : ℕ) :
    step rnd ⟨none, .run, stk, vars, k⟩ .rnd =
      pushR stk vars (k + 1) (rnd k) := rfl

theorem step_store (rnd : ℕ → ℝ) (x : ℝ) (stk : List ℝ)
    (vars : Fin 12 → ℝ) (k : ℕ) (v : Fin 12) :
    step rnd ⟨none, .run, x :: stk, vars, k⟩ (.store v) =
      ⟨none, .run, stk, Function.update vars v x, k⟩ := rfl

theorem step_op1 (rnd : ℕ → ℝ) (x : ℝ) (stk : List ℝ)
    (vars : Fin 12 → ℝ) (k : ℕ) (f : Op1) :
    step rnd ⟨none, .run, x :: stk, vars, k⟩ (.op1 f) =
      ⟨none, .run, f.sem x :: stk, vars, k⟩ := rfl

theorem step_op2 (rnd : ℕ → ℝ) (x y : ℝ) (stk : List ℝ)
    (vars : Fin 12 → ℝ) (k : ℕ) (f : Op2) :
    step rnd ⟨none, .run, y :: x :: stk, vars, k⟩ (.op2 f) =
      ⟨none, .run, f.sem x y :: stk, vars, k⟩ := rfl

theorem step_condIf (rnd : ℕ → ℝ) (c : ℝ) (stk : List ℝ)
    (vars : Fin 12 → ℝ) (k : ℕ) :
    step rnd ⟨none, .run, c :: stk, vars, k⟩ .condIf =
      if c = 0 then ⟨none, .skipElse 0, stk, vars, k⟩
      else ⟨none, .run, stk, vars, k⟩ := rfl

theorem step_condElse_run (rnd : ℕ → ℝ) (stk : List ℝ)
    (vars : Fin 12 → ℝ) (k : ℕ) :
    step rnd ⟨none, .run, stk, vars, k⟩ .condElse =
      ⟨none, .skipEnd 0, stk, vars, k⟩ := rfl

theorem step_condEnd_run (rnd : ℕ → ℝ) (stk : List ℝ)
    (vars : Fin 12 → ℝ) (k : ℕ) :
    step rnd ⟨none, .run, stk, vars, k⟩ .condEnd =
      ⟨none, .run, stk, vars, k⟩ := rfl

theorem step_condElse_skip0 (rnd : ℕ → ℝ) (stk : List ℝ)
    (vars : Fin 12 → ℝ) (k : ℕ) :
    step rnd ⟨none, .skipElse 0, stk, vars, k⟩ .condElse =
      ⟨none, .run, stk, vars, k⟩ := rfl

theorem step_condEnd_skip0 (rnd : ℕ → ℝ) (stk : List ℝ)
    (vars : Fin 12 → ℝ) (k : ℕ) :
    step rnd ⟨none, .skipEnd 0, stk, vars, k⟩ .condEnd =
      ⟨none, .run, stk, vars, k⟩ := rfl

/-! ### Projection forms of the denotational semantics -/

theorem evalE_op1 (rnd : ℕ → ℝ) (f : Op1) (a : Expr) (vars : Fin 12 → ℝ)
    (k : ℕ) :
    evalE rnd (.op1 f a) vars k =
      (f.sem (evalE rnd a vars k).1, (evalE rnd a vars k).2) := rfl

theorem evalE_op2 (rnd : ℕ → ℝ) (f : Op2) (a b : Expr) (vars : Fin 12 → ℝ)
    (k : ℕ) :
    evalE rnd (.op2 f a b) vars k =
      (f.sem (evalE rnd a vars k).1
        (evalE rnd b vars (evalE rnd a vars k).2).1,
       (evalE rnd b vars (evalE rnd a vars k).2).2) := rfl

theorem evalE_cond (rnd : ℕ → ℝ) (c t e : Expr) (vars : Fin 12 → ℝ)
    (k : ℕ) :
    evalE rnd (.cond c t e) vars k =
      if (evalE rnd c vars k).1 = 0 then
        evalE rnd e vars (evalE rnd c vars k).2
      else evalE rnd t vars (evalE rnd c vars k).2 := rfl

theorem evalP_bare (rnd : ℕ → ℝ) (e : Expr) (r : Prog) (vars : Fin 12 → ℝ)
    (k : ℕ) :
    evalP rnd ((none, e) :: r) vars k =
      ((evalP rnd r vars (evalE rnd e vars k).2).1 ++ [(evalE rnd e vars k).1],
       (evalP rnd r vars (evalE rnd e vars k).2).2.1,
       (evalP rnd r vars (evalE rnd e vars k).2).2.2) := rfl

theorem evalP_assign (rnd : ℕ → ℝ) (i : Fin 12) (e : Expr) (r : Prog)
    (vars : Fin 12 → ℝ) (k : ℕ) :
    evalP rnd ((some i, e) :: r) vars k =
      evalP rnd r (Function.update vars i (evalE rnd e vars k).1)
        (evalE rnd e vars k).2 := rfl

/-! ### The machine computes the denotational semantics -/

theorem runE (rnd : ℕ → ℝ) (e : Expr) :
    ∀ (stk : List ℝ) (vars : Fin 12 → ℝ) (k : ℕ) (d2 : ℕ),
    linSim (flattenE e) stk.length = .ok d2 →
    runC rnd (flattenE e) ⟨none, .run, stk, vars, k⟩ =
      ⟨none, .run, (evalE rnd e vars k).1 :: stk, vars,
        (evalE rnd e vars k).2⟩ := by
  induction e with
  | lit n j =>
    intro stk vars k d2 h
    obtain ⟨dm, h1, -⟩ := linSim_cons_ok h
    obtain ⟨-, hcap, -⟩ := linStep_ok h1
    simp only [popPush] at hcap
    rw [flattenE, runC_cons, step_lit, pushR_lt _ _ _ (by omega), runC_nil]
    rfl
  | cst c =>
    intro stk vars k d2 h
    obtain ⟨dm, h1, -⟩ := linSim_cons_ok h
    obtain ⟨-, hcap, -⟩ := linStep_ok h1
    simp only [popPush] at hcap
    rw [flattenE, runC_cons, step_cst, pushR_lt _ _ _ (by omega), runC_nil]
    rfl
  | var v =>
    intro stk vars k d2 h
    obtain ⟨dm, h1, -⟩ := linSim_cons_ok h
    obtain ⟨-, hcap, -⟩ := linStep_ok h1
    simp only [popPush] at hcap
    rw [flattenE, runC_cons, step_fetch, pushR_lt _ _ _ (by omega), runC_nil]
    rfl
  | rnd =>
    intro stk vars k d2 h
    obtain ⟨dm, h1, -⟩ := linSim_cons_ok h
    obtain ⟨-, hcap, -⟩ := linStep_ok h1
    simp only [popPush] at hcap
    rw [flattenE, runC_cons, step_rnd, pushR_lt _ _ _ (by omega), runC_nil]
    rfl
  | op1 f a iha =>
    intro stk vars k d2 h
    rw [flattenE] at h ⊢
    obtain ⟨dm, ha, h1⟩ := linSim_append_inv h
    rw [runC_append, iha stk vars k dm ha, runC_cons, step_op1, runC_nil,
      evalE_op1]
  | op2 f a b iha ihb =>
    intro stk vars k d2 h
    rw [flattenE] at h ⊢
    obtain ⟨dm, ha, h1⟩ := linSim_append_inv h
    obtain ⟨dn, hb, h2⟩ := linSim_append_inv h1
    have hdm := linSim_flattenE_depth a _ _ ha
    have hlb : linSim (flattenE b)
        ((evalE rnd a vars k).1 :: stk).length = .ok dn := by
      simpa [hdm] using hb
    rw [runC_append, iha stk vars k dm ha, runC_append,
      ihb ((evalE rnd a vars k).1 :: stk) vars (evalE rnd a vars k).2 dn hlb,
      runC_cons, step_op2, runC_nil, evalE_op2]
  | cond c t e ihc iht ihe =>
    intro stk vars k d2 h
    rw [flattenE] at h ⊢
    obtain ⟨dm, hc, h1⟩ := linSim_append_inv h
    have hdm := linSim_flattenE_depth c _ _ hc
    obtain ⟨dn, hif, h2⟩ := linSim_cons_ok h1
    obtain ⟨-, -, hn⟩ := linStep_ok hif
    simp only [popPush] at hn
    have hn2 : dn = stk.length := by omega
    rw [hn2] at h2
    obtain ⟨dp, hst, h3⟩ := linSim_append_inv h2
    have hdp := linSim_flattenE_depth t _ _ hst
    obtain ⟨dq, hel, h4⟩ := linSim_cons_ok h3
    obtain ⟨-, -, hq⟩ := linStep_ok hel
    simp only [popPush] at hq
    have hq2 : dq = stk.length := by omega
    rw [hq2] at h4
    obtain ⟨dr, hse, h5⟩ := linSim_append_inv h4
    rw [runC_append, ihc stk vars k dm hc, runC_cons, step_condIf]
    by_cases hcv : (evalE rnd c vars k).1 = 0
    · rw [if_pos hcv]
      rw [runC_append, flattenE_skipElse, runC_cons, step_condElse_skip0,
        runC_append, ihe stk vars (evalE rnd c vars k).2 dr hse,
        runC_cons, step_condEnd_run, runC_nil, evalE_cond, if_pos hcv]
    · rw [if_neg hcv]
      rw [runC_append, iht stk vars (evalE rnd c vars k).2 dp hst,
        runC_cons, step_condElse_run, runC_append, flattenE_skipEnd,
        runC_cons, step_condEnd_skip0, runC_nil, evalE_cond, if_neg hcv]

theorem countBare_none (e : Expr) (r : Prog) :
    countBare ((none, e) :: r) = countBare r + 1 := by
  simp [countBare]

theorem countBare_some (v : Fin 12) (e : Expr) (r : Prog) :
    countBare ((some v, e) :: r) = countBare r := by
  simp [countBare]

theorem linSim_flattenP_depth (p : Prog) :
    ∀ d d2, linSim (flattenP p) d = .ok d2 → d2 = d + countBare p := by
  induction p with
  | nil =>
    intro d d2 h
    cases h
    simp [countBare]
  | cons se r ih =>
    intro d d2 h
    obtain ⟨i, e⟩ := se
    cases i with
    | none =>
      rw [flattenP, flattenS] at h
      obtain ⟨dm, he, h1⟩ := linSim_append_inv h
      have h2 := linSim_flattenE_depth e _ _ he
      have h3 := ih dm d2 h1
      rw [countBare_none]
      omega
    | some v =>
      rw [flattenP, flattenS, List.append_assoc, List.singleton_append] at h
      obtain ⟨dm, he, h1⟩ := linSim_append_inv h
      have h2 := linSim_flattenE_depth e _ _ he
      obtain ⟨dn, hst, h4⟩ := linSim_cons_ok h1
      obtain ⟨-, -, h5⟩ := linStep_ok hst
      simp only [popPush] at h5
      have h6 := ih dn d2 h4
      rw [countBare_some]
      omega

theorem evalP_len (rnd : ℕ → ℝ) (p : Prog) :
    ∀ vars k, (evalP rnd p vars k).1.length = countBare p := by
  induction p with
  | nil => intro vars k; rfl
  | cons se r ih =>
    intro vars k
    obtain ⟨i, e⟩ := se
    cases i with
    | none =>
      rw [evalP_bare]
      simp only [List.length_append, List.length_cons, List.length_nil, ih]
      simp [countBare, List.filter]
    | some v =>
      rw [evalP_assign, ih]
      simp [countBare, List.filter]

theorem runP (rnd : ℕ → ℝ) (p : Prog) :
    ∀ (stk : List ℝ) (vars : Fin 12 → ℝ) (k : ℕ) (d2 : ℕ),
    linSim (flattenP p) stk.length = .ok d2 →
    runC rnd (flattenP p) ⟨none, .run, stk, vars, k⟩ =
      ⟨none, .run, (evalP rnd p vars k).1 ++ stk,
        (evalP rnd p vars k).2.1, (evalP rnd p vars k).2.2⟩ := by
  induction p with
  | nil =>
    intro stk vars k d2 h
    rw [flattenP, runC_nil]
    rfl
  | cons se r ih =>
    intro stk vars k d2 h
    obtain ⟨i, e⟩ := se
    cases i with
    | none =>
      rw [flattenP, flattenS] at h ⊢
      obtain ⟨dm, he, h1⟩ := linSim_append_inv h
      have h2 := linSim_flattenE_depth e _ _ he
      have h3 : linSim (flattenP r)
          ((evalE rnd e vars k).1 :: stk).length = .ok d2 := by
        simpa [h2] using h1
      rw [runC_append, runE rnd e stk vars k dm he,
        ih ((evalE rnd e vars k).1 :: stk) vars (evalE rnd e vars k).2 d2 h3,
        evalP_bare]
      simp
    | some v =>
      rw [flattenP, flattenS, List.append_assoc, List.singleton_append] at h ⊢
      obtain ⟨dm, he, h1⟩ := linSim_append_inv h
      have h2 := linSim_flattenE_depth e _ _ he
      obtain ⟨dn, hst, h4⟩ := linSim_cons_ok h1
      obtain ⟨-, -, h5⟩ := linStep_ok hst
      simp only [popPush] at h5
      have h6 : dn = stk.length := by omega
      rw [h6] at h4
      rw [runC_append, runE rnd e stk vars k dm he, runC_cons, step_store,
        ih stk (Function.update vars v (evalE rnd e vars k).1)
          (evalE rnd e vars k).2 d2 h4, evalP_assign]

/-- Inversion of a successful compile: the string parses, the emitted
code is the flattening of the parse, and the depth simulation
accepts it with final depth 1. -/
theorem calcCompile_inv {s : String} {code : List Instr}
    (h : calcCompile s = .ok code) :
    ∃ p, calcParse s = .ok p ∧ code = flattenP p ∧
      linSim (flattenP p) 0 = .ok 1 := by
  unfold calcCompile at h
  split at h
  next e heq => exact absurd h (by simp)
  next p heq =>
    split at h
    next e heq2 => exact absurd h (by simp)
    next d heq2 =>
      split at h
      next hd =>
        cases h
        subst hd
        exact ⟨p, heq, rfl, heq2⟩
      next => exact absurd h (by simp)

/-- Main spec-modelled correctness result: evaluating a successfully
compiled buffer against any variable slots and any random stream
returns, without error, the direct denotational value of the parsed
expression list, and the final variable slots of its direct
evaluation. -/
theorem compile_correct {s : String} {code : List Instr} {p : Prog}
    (hc : calcCompile s = .ok code) (hp : calcParse s = .ok p)
    (vars : Fin 12 → ℝ) (rnd : ℕ → ℝ) :
    calcPerform code vars rnd =
      .ok (progVal rnd p vars, progVars rnd p vars) := by
  obtain ⟨p2, hp2, hcode, hsim⟩ := calcCompile_inv hc
  rw [hp] at hp2
  cases hp2
  subst hcode
  have h0 : ([] : List ℝ).length = 0 := rfl
  have hrun := runP rnd p [] vars 0 1 (by simpa using hsim)
  have hlen : (evalP rnd p vars 0).1.length = 1 := by
    have := linSim_flattenP_depth p 0 1 hsim
    rw [evalP_len]
    omega
  obtain ⟨x, hx⟩ := List.length_eq_one.mp hlen
  unfold calcPerform
  rw [hrun, hx]
  simp only [List.cons_append, List.nil_append]
  rw [progVal, progVars, hx]
  rfl

/-- A successful compile evaluates without any error. -/
theorem compile_no_error {s : String} {code : List Instr}
    (hc : calcCompile s = .ok code) (vars : Fin 12 → ℝ) (rnd : ℕ → ℝ) :
    ∃ r vars2, calcPerform code vars rnd = .ok (r, vars2) := by
  obtain ⟨p, hp, -, -⟩ := calcCompile_inv hc
  exact ⟨_, _, compile_correct hc hp vars rnd⟩

/-! ### Parse-level facts -/

/-- Every accepted parse has exactly one bare sub-expression. -/
theorem calcParse_bare {s : String} {p : Prog} (h : calcParse s = .ok p) :
    countBare p = 1 := by
  unfold calcParse at h
  split at h
  · exact absurd h (by simp)
  · exact absurd h (by simp)
  · rename_i ts hne hts
    unfold parseToks at h
    split at h
    · exact absurd h (by simp)
    · rename_i p0 hp0
      split at h
      · rename_i hcb
        cases h
        exact hcb
      · exact absurd h (by simp)

/-! ### Evaluation does not depend on the random stream
when no random instruction occurs -/

theorem step_indep (r1 r2 : ℕ → ℝ) (s : MS) (i : Instr) (h : i ≠ .rnd) :
    step r1 s i = step r2 s i := by
  obtain ⟨err, md, stk, vars, k⟩ := s
  cases err with
  | some e => rfl
  | none =>
    cases md <;> cases i <;>
      first
        | rfl
        | exact absurd rfl h
        | (cases stk with
           | nil => rfl
           | cons x t => first | rfl | (cases t <;> rfl))

theorem runC_rnd_indep (r1 r2 : ℕ → ℝ) (code : List Instr) :
    ∀ s, Instr.rnd ∉ code → runC r1 code s = runC r2 code s := by
  induction code with
  | nil => intro s _; rfl
  | cons i c ih =>
    intro s h
    have hi : i ≠ .rnd := fun hh => h (hh ▸ List.mem_cons_self _ _)
    have hc : Instr.rnd ∉ c := fun hh => h (List.mem_cons_of_mem _ hh)
    rw [runC_cons, runC_cons, step_indep r1 r2 s i hi, ih _ hc]

theorem calcPerform_rnd_indep {code : List Instr} (vars : Fin 12 → ℝ)
    (r1 r2 : ℕ → ℝ) (h : Instr.rnd ∉ code) :
    calcPerform code vars r1 = calcPerform code vars r2 := by
  unfold calcPerform
  rw [runC_rnd_indep r1 r2 code _ h]

/-! ### A leading plus sign always fails to parse -/

theorem pPrim_plus (f : ℕ) (r : List Tok) :
    ∃ e, pPrim f (.plus :: r) = .error e := by
  cases f with
  | zero => exact ⟨.INTERNAL, rfl⟩
  | succ f => exact ⟨.INCOMPLETE, rfl⟩

theorem pUn_plus (f : ℕ) (r : List Tok) :
    ∃ e, pUn f (.plus :: r) = .error e := by
  cases f with
  | zero => exact ⟨.INTERNAL, rfl⟩
  | succ f =>
    obtain ⟨e, he⟩ := pPrim_plus f r
    refine ⟨e, ?_⟩
    rw [show pUn (f + 1) (.plus :: r) = pPrim f (.plus :: r) from rfl, he]

theorem pBin_plus (f : ℕ) : ∀ (lvl : ℕ) (r : List Tok),
    ∃ e, pBin lvl f (.plus :: r) = .error e := by
  induction f with
  | zero => intro lvl r; exact ⟨.INTERNAL, rfl⟩
  | succ f ih =>
    intro lvl r
    by_cases h9 : 9 ≤ lvl
    · obtain ⟨e, he⟩ := pUn_plus f r
      refine ⟨e, ?_⟩
      rw [pBin, if_pos h9, he]
    · obtain ⟨e, he⟩ := ih (lvl + 1) r
      refine ⟨e, ?_⟩
      rw [pBin, if_neg h9, he]

theorem pCondE_plus (f : ℕ) (r : List Tok) :
    ∃ e, pCondE f (.plus :: r) = .error e := by
  cases f with
  | zero => exact ⟨.INTERNAL, rfl⟩
  | succ f =>
    obtain ⟨e, he⟩ := pBin_plus f 0 r
    refine ⟨e, ?_⟩
    rw [pCondE, he]

theorem pProg_plus (f : ℕ) (r : List Tok) :
    ∃ e, pProg f (.plus :: r) = .error e := by
  cases f with
  | zero => exact ⟨.INTERNAL, rfl⟩
  | succ f =>
    obtain ⟨e, he⟩ := pCondE_plus f r
    refine ⟨e, ?_⟩
    rw [pProg]
    rw [show pSub f (.plus :: r) =
          (match pCondE f (.plus :: r) with
           | .error er => .error er
           | .ok (ex, r2) => .ok ((none, ex), r2)) from rfl]
    rw [he]

theorem parseToks_plus (ts : List Tok) :
    ∃ e, parseToks (.plus :: ts) = .error e := by
  obtain ⟨e, he⟩ := pProg_plus (16 * (Tok.plus :: ts).length + 64) (ts)
  refine ⟨e, ?_⟩
  unfold parseToks
  rw [he]

theorem calcCompile_plus (cs : List Char) :
    ∃ e, calcCompile (String.mk ('+' :: cs)) = .error e := by
  have hlex : lexA ((String.mk ('+' :: cs)).data.length + 1)
      (String.mk ('+' :: cs)).data =
      (match lexA (cs.length + 1) cs with
       | .error e => .error e
       | .ok ts => .ok (Tok.plus :: ts)) := rfl
  cases hc : lexA (cs.length + 1) cs with
  | error e =>
    refine ⟨e, ?_⟩
    unfold calcCompile calcParse
    rw [hlex, hc]
  | ok ts =>
    obtain ⟨e, he⟩ := parseToks_plus ts
    refine ⟨e, ?_⟩
    have hp : calcParse (String.mk ('+' :: cs)) = .error e := by
      unfold calcParse
      rw [hlex, hc]
      show parseToks (Tok.plus :: ts) = .error e
      exact he
    unfold calcCompile
    rw [hp]

/-! ### Characterization of the usage scan -/

theorem testBit_or_pow {a j i : ℕ} :
    (a ||| 2 ^ j).testBit i ↔ (a.testBit i ∨ i = j) := by
  simp [Nat.testBit_or, Nat.testBit_two_pow]
  tauto

theorem readsBefore_nil (v : Fin 12) : ¬ readsBefore [] v := by
  rintro ⟨l1, l2, h, -⟩
  cases l1 <;> simp_all

theorem readsBefore_cons_fetch (u v : Fin 12) (r : List Instr) :
    readsBefore (.fetch u :: r) v ↔ (u = v ∨ readsBefore r v) := by
  constructor
  · rintro ⟨l1, l2, h, hn⟩
    cases l1 with
    | nil =>
      simp only [List.nil_append, List.cons.injEq, Instr.fetch.injEq] at h
      exact Or.inl h.1
    | cons a l1 =>
      simp only [List.cons_append, List.cons.injEq] at h
      refine Or.inr ⟨l1, l2, h.2, fun hm => hn ?_⟩
      exact List.mem_cons_of_mem _ hm
  · rintro (rfl | ⟨l1, l2, rfl, hn⟩)
    · exact ⟨[], r, rfl, by simp⟩
    · refine ⟨.fetch u :: l1, l2, rfl, ?_⟩
      simp only [List.mem_cons, not_or]
      exact ⟨by simp, hn⟩

theorem readsBefore_cons_store (u v : Fin 12) (r : List Instr) :
    readsBefore (.store u :: r) v ↔ (u ≠ v ∧ readsBefore r v) := by
  constructor
  · rintro ⟨l1, l2, h, hn⟩
    cases l1 with
    | nil => simp at h
    | cons a l1 =>
      simp only [List.cons_append, List.cons.injEq] at h
      obtain ⟨ha, hr⟩ := h
      subst ha
      simp only [List.mem_cons, not_or, Instr.store.injEq] at hn
      exact ⟨fun huv => hn.1 huv.symm, l1, l2, hr, hn.2⟩
  · rintro ⟨hne, l1, l2, rfl, hn⟩
    refine ⟨.store u :: l1, l2, rfl, ?_⟩
    simp only [List.mem_cons, not_or, Instr.store.injEq]
    exact ⟨fun h => hne h.symm, hn⟩

theorem readsBefore_cons_other (i : Instr) (v : Fin 12) (r : List Instr)
    (h1 : ∀ u : Fin 12, i ≠ .fetch u) (h2 : ∀ u : Fin 12, i ≠ .store u) :
    readsBefore (i :: r) v ↔ readsBefore r v := by
  constructor
  · rintro ⟨l1, l2, h, hn⟩
    cases l1 with
    | nil =>
      simp only [List.nil_append, List.cons.injEq] at h
      exact absurd h.1 (h1 v)
    | cons a l1 =>
      simp only [List.cons_append, List.cons.injEq] at h
      exact ⟨l1, l2, h.2, fun hm => hn (List.mem_cons_of_mem _ hm)⟩
  · rintro ⟨l1, l2, rfl, hn⟩
    refine ⟨i :: l1, l2, rfl, ?_⟩
    simp only [List.mem_cons, not_or]
    exact ⟨fun h => h2 v h.symm, hn⟩

theorem argUsageA_fst (code : List Instr) :
    ∀ (w ins sts : ℕ) (v : Fin 12),
    ((argUsageA code w ins sts).1.testBit v.val) ↔
      (ins.testBit v.val ∨ (¬ w.testBit v.val ∧ readsBefore code v)) := by
  induction code with
  | nil =>
    intro w ins sts v
    simp only [argUsageA]
    constructor
    · exact Or.inl
    · rintro (h | ⟨-, h⟩)
      · exact h
      · exact absurd h (readsBefore_nil v)
  | cons i r ih =>
    intro w ins sts v
    cases i with
    | fetch u =>
      rw [show argUsageA (.fetch u :: r) w ins sts =
            argUsageA r w
              (if w.testBit u.val then ins else ins ||| 2 ^ u.val) sts
          from rfl,
        ih, readsBefore_cons_fetch]
      by_cases hw : w.testBit u.val
      · rw [if_pos hw]
        constructor
        · rintro (h | ⟨hnw, hr⟩)
          · exact Or.inl h
          · exact Or.inr ⟨hnw, Or.inr hr⟩
        · rintro (h | ⟨hnw, rfl | hr⟩)
          · exact Or.inl h
          · exact absurd hw hnw
          · exact Or.inr ⟨hnw, hr⟩
      · rw [if_neg hw]
        rw [@testBit_or_pow ins u.val v.val]
        constructor
        · rintro ((h | he) | ⟨hnw, hr⟩)
          · exact Or.inl h
          · have huv : u = v := Fin.val_injective he.symm
            subst huv
            exact Or.inr ⟨hw, Or.inl rfl⟩
          · exact Or.inr ⟨hnw, Or.inr hr⟩
        · rintro (h | ⟨hnw, rfl | hr⟩)
          · exact Or.inl (Or.inl h)
          · exact Or.inl (Or.inr rfl)
          · exact Or.inr ⟨hnw, hr⟩
    | store u =>
      rw [show argUsageA (.store u :: r) w ins sts =
            argUsageA r (w ||| 2 ^ u.val) ins (sts ||| 2 ^ u.val)
          from rfl,
        ih, readsBefore_cons_store]
      rw [@testBit_or_pow w u.val v.val]
      constructor
      · rintro (h | ⟨hnw, hr⟩)
        · exact Or.inl h
        · push_neg at hnw
          exact Or.inr ⟨hnw.1,
            fun huv => hnw.2 (congrArg Fin.val huv).symm, hr⟩
      · rintro (h | ⟨hnw, hne, hr⟩)
        · exact Or.inl h
        · refine Or.inr ⟨?_, hr⟩
          push_neg
          exact ⟨hnw, fun he => hne (Fin.val_injective he.symm)⟩
    | lit n k =>
      rw [show argUsageA (.lit n k :: r) w ins sts = argUsageA r w ins sts
          from rfl, ih,
        readsBefore_cons_other _ v r (fun u => by simp) (fun u => by simp)]
    | cst c =>
      rw [show argUsageA (.cst c :: r) w ins sts = argUsageA r w ins sts
          from rfl, ih,
        readsBefore_cons_other _ v r (fun u => by simp) (fun u => by simp)]
    | rnd =>
      rw [show argUsageA (.rnd :: r) w ins sts = argUsageA r w ins sts
          from rfl, ih,
        readsBefore_cons_other _ v r (fun u => by simp) (fun u => by simp)]
    | op1 fn =>
      rw [show argUsageA (.op1 fn :: r) w ins sts = argUsageA r w ins sts
          from rfl, ih,
        readsBefore_cons_other _ v r (fun u => by simp) (fun u => by simp)]
    | op2 fn =>
      rw [show argUsageA (.op2 fn :: r) w ins sts = argUsageA r w ins sts
          from rfl, ih,
        readsBefore_cons_other _ v r (fun u => by simp) (fun u => by simp)]
    | condIf =>
      rw [show argUsageA (.condIf :: r) w ins sts = argUsageA r w ins sts
          from rfl, ih,
        readsBefore_cons_other _ v r (fun u => by simp) (fun u => by simp)]
    | condElse =>
      rw [show argUsageA (.condElse :: r) w ins sts = argUsageA r w ins sts
          from rfl, ih,
        readsBefore_cons_other _ v r (fun u => by simp) (fun u => by simp)]
    | condEnd =>
      rw [show argUsageA (.condEnd :: r) w ins sts = argUsageA r w ins sts
          from rfl, ih,
        readsBefore_cons_other _ v r (fun u => by simp) (fun u => by simp)]

theorem argUsageA_snd (code : List Instr) :
    ∀ (w ins sts : ℕ) (v : Fin 12),
    ((argUsageA code w ins sts).2.testBit v.val) ↔
      (sts.testBit v.val ∨ .store v ∈ code) := by
  induction code with
  | nil =>
    intro w ins sts v
    simp [argUsageA]
  | cons i r ih =>
    intro w ins sts v
    cases i with
    | store u =>
      rw [show argUsageA (.store u :: r) w ins sts =
            argUsageA r (w ||| 2 ^ u.val) ins (sts ||| 2 ^ u.val)
          from rfl, ih]
      rw [@testBit_or_pow sts u.val v.val]
      simp only [List.mem_cons, Instr.store.injEq]
      constructor
      · rintro ((h | he) | hm)
        · exact Or.inl h
        · exact Or.inr (Or.inl (Fin.val_injective he))
        · exact Or.inr (Or.inr hm)
      · rintro (h | (he | hm))
        · exact Or.inl (Or.inl h)
        · exact Or.inl (Or.inr (congrArg Fin.val he))
        · exact Or.inr hm
    | fetch u =>
      rw [show argUsageA (.fetch u :: r) w ins sts =
            argUsageA r w
              (if w.testBit u.val then ins else ins ||| 2 ^ u.val) sts
          from rfl, ih]
      simp
    | lit n k =>
      rw [show argUsageA (.lit n k :: r) w ins sts = argUsageA r w ins sts
          from rfl, ih]
      simp
    | cst c =>
      rw [show argUsageA (.cst c :: r) w ins sts = argUsageA r w ins sts
          from rfl, ih]
      simp
    | rnd =>
      rw [show argUsageA (.rnd :: r) w ins sts = argUsageA r w ins sts
          from rfl, ih]
      simp
    | op1 fn =>
      rw [show argUsageA (.op1 fn :: r) w ins sts = argUsageA r w ins sts
          from rfl, ih]
      simp
    | op2 fn =>
      rw [show argUsageA (.op2 fn :: r) w ins sts = argUsageA r w ins sts
          from rfl, ih]
      simp
    | condIf =>
      rw [show argUsageA (.condIf :: r) w ins sts = argUsageA r w ins sts
          from rfl, ih]
      simp
    | condElse =>
      rw [show argUsageA (.condElse :: r) w ins sts = argUsageA r w ins sts
          from rfl, ih]
      simp
    | condEnd =>
      rw [show argUsageA (.condEnd :: r) w ins sts = argUsageA r w ins sts
          from rfl, ih]
      simp

theorem calcArgUsage_spec (code : List Instr) (v : Fin 12) :
    ((calcArgUsage code).1.testBit v.val ↔ readsBefore code v) ∧
    ((calcArgUsage code).2.testBit v.val ↔ .store v ∈ code) := by
  constructor
  · rw [calcArgUsage, argUsageA_fst]
    simp
  · rw [calcArgUsage, argUsageA_snd]
    simp

/-! ### Claim theorems -/

/-- C1: for every infix string accepted by the compiler, calcPerform on
the compiled buffer returns, for every assignment of the 12 variable
slots (and any random stream), exactly the direct denotational value of
the parsed expression list under the documented operator semantics; in
particular "2+3*4" compiles and evaluates to 14 and "(2+3)*4" to 20,
witnessing precedence and grouping. -/
theorem claimC1 :
    (∀ (s : String) (code : List Instr) (p : Prog) (vars : Fin 12 → ℝ)
        (rnd : ℕ → ℝ), calcCompile s = .ok code → calcParse s = .ok p →
        calcPerform code vars rnd =
          .ok (progVal rnd p vars, progVars rnd p vars)) ∧
    (calcCompile "2+3*4" =
        .ok [.lit 2 0, .lit 3 0, .lit 4 0, .op2 .mul, .op2 .add] ∧
      ∀ (vars : Fin 12 → ℝ) (rnd : ℕ → ℝ),
        calcPerform [.lit 2 0, .lit 3 0, .lit 4 0, .op2 .mul, .op2 .add]
          vars rnd = .ok (14, vars)) ∧
    (calcCompile "(2+3)*4" =
        .ok [.lit 2 0, .lit 3 0, .op2 .add, .lit 4 0, .op2 .mul] ∧
      ∀ (vars : Fin 12 → ℝ) (rnd : ℕ → ℝ),
        calcPerform [.lit 2 0, .lit 3 0, .op2 .add, .lit 4 0, .op2 .mul]
          vars rnd = .ok (20, vars)) := by
  refine ⟨fun s code p vars rnd hc hp => compile_correct hc hp vars rnd,
    ⟨by decide, ?_⟩, ⟨by decide, ?_⟩⟩
  · intro vars rnd
    have hc : calcCompile "2+3*4" =
        .ok [.lit 2 0, .lit 3 0, .lit 4 0, .op2 .mul, .op2 .add] := by decide
    have hp : calcParse "2+3*4" =
        .ok [(none, .op2 .add (.lit 2 0)
          (.op2 .mul (.lit 3 0) (.lit 4 0)))] := by decide
    rw [compile_correct hc hp vars rnd]
    simp [progVal, progVars, evalP, evalE, litVal, Op2.sem]
    norm_num
  · intro vars rnd
    have hc : calcCompile "(2+3)*4" =
        .ok [.lit 2 0, .lit 3 0, .op2 .add, .lit 4 0, .op2 .mul] := by decide
    have hp : calcParse "(2+3)*4" =
        .ok [(none, .op2 .mul (.op2 .add (.lit 2 0) (.lit 3 0))
          (.lit 4 0))] := by decide
    rw [compile_correct hc hp vars rnd]
    simp [progVal, progVars, evalP, evalE, litVal, Op2.sem]
    norm_num

theorem claimC1_w :
    calcPerform [.lit 2 0, .lit 3 0, .lit 4 0, .op2 .mul, .op2 .add]
      (fun _ => 0) (fun _ => 0) =
      .ok (progVal (fun _ => 0)
          [(none, .op2 .add (.lit 2 0) (.op2 .mul (.lit 3 0) (.lit 4 0)))]
          (fun _ => 0),
        progVars (fun _ => 0)
          [(none, .op2 .add (.lit 2 0) (.op2 .mul (.lit 3 0) (.lit 4 0)))]
          (fun _ => 0)) :=
  claimC1.1 "2+3*4" _ _ (fun _ => 0) (fun _ => 0) (by decide) (by decide)

set_option maxRecDepth 16384 in
/-- C2: the 321-character expression that would need 81 pending operands
fails compilation with exactly the OVERFLOW error code, and every buffer
accepted by the compile-time depth simulation evaluates without any
error, so calcPerform can never overflow (or otherwise fail on) a buffer
produced by a successful compile. -/
theorem claimC2 :
    calcCompile deepStr = .error .OVERFLOW ∧
    (∀ (s : String) (p : Prog), calcParse s = .ok p →
      linSim (flattenP p) 0 = .error .OVERFLOW →
      calcCompile s = .error .OVERFLOW) ∧
    (∀ (s : String) (code : List Instr) (vars : Fin 12 → ℝ)
        (rnd : ℕ → ℝ), calcCompile s = .ok code →
      ∃ r vars2, calcPerform code vars rnd = .ok (r, vars2)) :=
  ⟨by decide,
    fun s p hp hsim => by
      unfold calcCompile
      rw [hp]
      show (match linSim (flattenP p) 0 with
        | .error e => .error e
        | .ok d =>
          if d = 1 then .ok (flattenP p) else .error .INTERNAL) =
        Except.error .OVERFLOW
      rw [hsim],
    fun s code vars rnd h => compile_no_error h vars rnd⟩

theorem claimC2_w :
    ∃ r vars2, calcPerform [Instr.lit 1 0] (fun _ => 0) (fun _ => 0) =
      .ok (r, vars2) :=
  claimC2.2.2 "1" [Instr.lit 1 0] (fun _ => 0) (fun _ => 0) (by decide)

/-- C3: "a:=1;a+1" compiles, and evaluating the buffer from any initial
variable slots returns the value 2 and leaves slot A set to 1 in the
caller's variable array: the return value is the value of the bare
sub-expression and the assignment side effect is observable after the
call. -/
theorem claimC3 :
    calcCompile "a:=1;a+1" =
      .ok [.lit 1 0, .store 0, .fetch 0, .lit 1 0, .op2 .add] ∧
    ∀ (vars : Fin 12 → ℝ) (rnd : ℕ → ℝ),
      calcPerform [.lit 1 0, .store 0, .fetch 0, .lit 1 0, .op2 .add]
        vars rnd = .ok (2, Function.update vars 0 1) := by
  refine ⟨by decide, ?_⟩
  intro vars rnd
  have hc : calcCompile "a:=1;a+1" =
      .ok [.lit 1 0, .store 0, .fetch 0, .lit 1 0, .op2 .add] := by decide
  have hp : calcParse "a:=1;a+1" =
      .ok [(some 0, .lit 1 0), (none, .op2 .add (.var 0) (.lit 1 0))] := by
    decide
  rw [compile_correct hc hp vars rnd]
  simp [progVal, progVars, evalP, evalE, litVal, Op2.sem]
  norm_num

/-- C4: the two-argument arctangent takes its arguments in swapped order
relative to ANSI C: the compiled form of atan2(a,b) computes the angle
whose tangent is b/a; atan2(1,0) evaluates to 0 and atan2(1,1) to pi/4,
which is exactly the value of atan(1/1). -/
theorem claimC4 :
    calcCompile "atan2(a,b)" = .ok [.fetch 0, .fetch 1, .op2 .atan2] ∧
    (∀ (vars : Fin 12 → ℝ) (rnd : ℕ → ℝ),
      calcPerform [.fetch 0, .fetch 1, .op2 .atan2] vars rnd =
        .ok (Real.arctan (vars 1 / vars 0), vars)) ∧
    calcCompile "atan2(1,0)" = .ok [.lit 1 0, .lit 0 0, .op2 .atan2] ∧
    (∀ (vars : Fin 12 → ℝ) (rnd : ℕ → ℝ),
      calcPerform [.lit 1 0, .lit 0 0, .op2 .atan2] vars rnd =
        .ok (0, vars)) ∧
    calcCompile "atan2(1,1)" = .ok [.lit 1 0, .lit 1 0, .op2 .atan2] ∧
    (∀ (vars : Fin 12 → ℝ) (rnd : ℕ → ℝ),
      calcPerform [.lit 1 0, .lit 1 0, .op2 .atan2] vars rnd =
        .ok (Real.pi / 4, vars)) ∧
    Real.arctan (1 / 1) = Real.pi / 4 := by
  refine ⟨by decide, ?_, by decide, ?_, by decide, ?_, ?_⟩
  · intro vars rnd
    have hc : calcCompile "atan2(a,b)" =
        .ok [.fetch 0, .fetch 1, .op2 .atan2] := by decide
    have hp : calcParse "atan2(a,b)" =
        .ok [(none, .op2 .atan2 (.var 0) (.var 1))] := by decide
    rw [compile_correct hc hp vars rnd]
    simp [progVal, progVars, evalP, evalE, Op2.sem]
  · intro vars rnd
    have hc : calcCompile "atan2(1,0)" =
        .ok [.lit 1 0, .lit 0 0, .op2 .atan2] := by decide
    have hp : calcParse "atan2(1,0)" =
        .ok [(none, .op2 .atan2 (.lit 1 0) (.lit 0 0))] := by decide
    rw [compile_correct hc hp vars rnd]
    simp [progVal, progVars, evalP, evalE, litVal, Op2.sem]
  · intro vars rnd
    have hc : calcCompile "atan2(1,1)" =
        .ok [.lit 1 0, .lit 1 0, .op2 .atan2] := by decide
    have hp : calcParse "atan2(1,1)" =
        .ok [(none, .op2 .atan2 (.lit 1 0) (.lit 1 0))] := by decide
    rw [compile_correct hc hp vars rnd]
    simp [progVal, progVars, evalP, evalE, litVal, Op2.sem]
  · norm_num [Real.arctan_one]

/-- C5: for every buffer, bit i of the first calcArgUsage bitmap is set
exactly when slot i is fetched somewhere in the buffer with no earlier
store to it, and bit i of the second exactly when some store targets
slot i; on the compilation of "b:=a+1;b*2" the bitmaps are (1, 2): only
the bit of A among inputs and only the bit of B among stores. -/
theorem claimC5 :
    (∀ (code : List Instr) (v : Fin 12),
      ((calcArgUsage code).1.testBit v.val ↔ readsBefore code v) ∧
      ((calcArgUsage code).2.testBit v.val ↔ .store v ∈ code)) ∧
    calcCompile "b:=a+1;b*2" =
      .ok [.fetch 0, .lit 1 0, .op2 .add, .store 1, .fetch 1, .lit 2 0,
        .op2 .mul] ∧
    calcArgUsage [.fetch 0, .lit 1 0, .op2 .add, .store 1, .fetch 1,
      .lit 2 0, .op2 .mul] = (1, 2) :=
  ⟨fun code v => calcArgUsage_spec code v, by decide, by decide⟩

/-- C6: every accepted expression list has exactly one bare
sub-expression, which may sit at any position among the assignments;
zero bare sub-expressions ("a:=1;b:=2") or several ("1;2") are rejected
with BAD_ASSIGNMENT, and an assignment whose target is not a single
variable letter ("1:=2") is rejected with SYNTAX. -/
theorem claimC6 :
    (∀ (s : String) (p : Prog), calcParse s = .ok p → countBare p = 1) ∧
    (calcCompile "2;a:=1").isOk = true ∧
    (calcCompile "a:=1;2").isOk = true ∧
    (calcCompile "a:=1;2;b:=3").isOk = true ∧
    calcCompile "a:=1;b:=2" = .error .BAD_ASSIGNMENT ∧
    calcCompile "1;2" = .error .BAD_ASSIGNMENT ∧
    calcCompile "1:=2" = .error .SYNTAX :=
  ⟨fun _ _ h => calcParse_bare h, by decide, by decide, by decide,
    by decide, by decide, by decide⟩

theorem claimC6_w :
    countBare [(some 0, Expr.lit 1 0), (none, Expr.lit 2 0)] = 1 :=
  claimC6.1 "a:=1;2" [(some 0, Expr.lit 1 0), (none, Expr.lit 2 0)]
    (by decide)

/-- C7: during evaluation of a compiled conditional the untaken branch
is scanned over without being executed: with a false condition the
machine behaves exactly as if the true-branch code (any
conditionally-balanced code, stores included) were absent, and with a
true condition the false-branch code is skipped, so only the taken
branch's effects reach the variable slots. -/
theorem claimC7 :
    ∀ (rnd : ℕ → ℝ) (t f rest : List Instr) (cv : ℝ) (stk : List ℝ)
      (vars : Fin 12 → ℝ) (k : ℕ), CondClosed t → CondClosed f →
    (cv = 0 →
      runC rnd (.condIf :: (t ++ .condElse :: (f ++ .condEnd :: rest)))
          ⟨none, .run, cv :: stk, vars, k⟩ =
        runC rnd (f ++ .condEnd :: rest) ⟨none, .run, stk, vars, k⟩) ∧
    (∀ (stk2 : List ℝ) (vars2 : Fin 12 → ℝ) (k2 : ℕ), cv ≠ 0 →
      runC rnd t ⟨none, .run, stk, vars, k⟩ =
        ⟨none, .run, stk2, vars2, k2⟩ →
      runC rnd (.condIf :: (t ++ .condElse :: (f ++ .condEnd :: rest)))
          ⟨none, .run, cv :: stk, vars, k⟩ =
        runC rnd rest ⟨none, .run, stk2, vars2, k2⟩) := by
  intro rnd t f rest cv stk vars k hct hcf
  constructor
  · intro hcv
    rw [runC_cons, step_condIf, if_pos hcv, runC_append]
    have hskip := skipElse_trans rnd t 0 0 0 stk vars k hct
    simp only [Nat.add_zero] at hskip
    rw [hskip, runC_cons, step_condElse_skip0]
  · intro stk2 vars2 k2 hcv hrun
    rw [runC_cons, step_condIf, if_neg hcv, runC_append, hrun, runC_cons,
      step_condElse_run, runC_append]
    have hskip := skipEnd_trans rnd f 0 0 0 stk2 vars2 k2 hcf
    simp only [Nat.add_zero] at hskip
    rw [hskip, runC_cons, step_condEnd_skip0]

theorem claimC7_w :
    runC (fun _ => 0)
        (.condIf :: ([.lit 5 0, .store 3] ++ .condElse ::
          ([.lit 7 0] ++ .condEnd :: [])))
        ⟨none, .run, 0 :: [], fun _ => 0, 0⟩ =
      runC (fun _ => 0) ([.lit 7 0] ++ .condEnd :: [])
        ⟨none, .run, [], fun _ => 0, 0⟩ :=
  (claimC7 (fun _ => 0) [.lit 5 0, .store 3] [.lit 7 0] [] 0 []
    (fun _ => 0) 0 (show CondClosed _ by unfold CondClosed; decide)
    (show CondClosed _ by unfold CondClosed; decide)).1 rfl

/-- C9 (counterexample): the claim that calcPerform is a function of
the buffer and the variable inputs alone is false: the buffer compiled
from "rndm" returns different results for different states of the
modelled random stream, with identical buffer and identical variable
inputs. -/
theorem claimC9_cex :
    calcCompile "rndm" = .ok [.rnd] ∧
    calcPerform [.rnd] (fun _ => 0) (fun _ => 0) ≠
      calcPerform [.rnd] (fun _ => 0) (fun _ => 1) := by
  refine ⟨by decide, ?_⟩
  have h0 : calcPerform [Instr.rnd] (fun _ => 0) (fun _ => 0) =
      .ok (0, fun _ => 0) := by
    simp [calcPerform, runC, List.foldl, step, pushR, stackCap]
  have h1 : calcPerform [Instr.rnd] (fun _ => 0) (fun _ => 1) =
      .ok (1, fun _ => 0) := by
    simp [calcPerform, runC, List.foldl, step, pushR, stackCap]
  rw [h0, h1]
  intro hcontra
  simp only [Except.ok.injEq, Prod.mk.injEq] at hcontra
  exact absurd hcontra.1 (by norm_num)

/-- C9 (amended): evaluation of any buffer that contains no
random-number instruction is a pure function of the buffer contents and
the variable inputs: two calls with identical buffers and identical
variable arrays return identical results and identical final variable
arrays whatever the state of the modelled random stream; buffers that
use rndm are exempt, as their result deliberately varies run to run. -/
theorem claimC9_amended :
    ∀ (code : List Instr) (vars : Fin 12 → ℝ) (r1 r2 : ℕ → ℝ),
      Instr.rnd ∉ code →
      calcPerform code vars r1 = calcPerform code vars r2 :=
  fun _ vars r1 r2 h => calcPerform_rnd_indep vars r1 r2 h

theorem claimC9_w :
    calcPerform [Instr.lit 1 0] (fun _ => 0) (fun _ => 0) =
      calcPerform [Instr.lit 1 0] (fun _ => 0) (fun _ => 1) :=
  claimC9_amended [Instr.lit 1 0] (fun _ => 0) (fun _ => 0) (fun _ => 1)
    (by decide)

/-- C10: there is no unary plus: every input whose first character is a
plus sign is rejected with a non-zero error code ("+1" and the operand
position in "2*+1" give INCOMPLETE), whereas a leading minus parses as
the unary negate operator applied to the non-negative literal that
follows it. -/
theorem claimC10 :
    (∀ cs : List Char, ∃ e, calcCompile (String.mk ('+' :: cs)) =
      .error e) ∧
    calcCompile "+1" = .error .INCOMPLETE ∧
    calcCompile "2*+1" = .error .INCOMPLETE ∧
    calcCompile "-1" = .ok [.lit 1 0, .op1 .neg] ∧
    calcCompile "-1.5" = .ok [.lit 15 1, .op1 .neg] :=
  ⟨calcCompile_plus, by decide, by decide, by decide, by decide⟩

/-! ### The worst-case expansion bound:
token weights against source characters -/

theorem toksW_nil : toksW [] = 0 := rfl

theorem toksW_cons (t : Tok) (ts : List Tok) :
    toksW (t :: ts) = tokW t + toksW ts := by
  simp [toksW]

theorem tokW_pos (t : Tok) : 1 ≤ tokW t := by
  cases t <;> simp [tokW] <;> split <;> omega

theorem codeSize_single (i : Instr) : codeSize [i] = instrSize i := by
  simp [codeSize]

theorem codeSize_append (a b : List Instr) :
    codeSize (a ++ b) = codeSize a + codeSize b := by
  simp [codeSize]

theorem codeSize_cons (i : Instr) (l : List Instr) :
    codeSize (i :: l) = instrSize i + codeSize l := by
  simp [codeSize]

theorem codeSize_op1 (g : Op1) (a : Expr) :
    codeSize (flattenE (.op1 g a)) = codeSize (flattenE a) + 1 := by
  rw [flattenE, codeSize_append, codeSize_single]
  rfl

theorem codeSize_op2 (g : Op2) (a b : Expr) :
    codeSize (flattenE (.op2 g a b)) =
      codeSize (flattenE a) + codeSize (flattenE b) + 1 := by
  rw [flattenE, codeSize_append, codeSize_append, codeSize_single]
  simp only [instrSize]
  omega

theorem codeSize_cond (c t e : Expr) :
    codeSize (flattenE (.cond c t e)) =
      codeSize (flattenE c) + codeSize (flattenE t) +
        codeSize (flattenE e) + 3 := by
  rw [flattenE, codeSize_append, codeSize_cons, codeSize_append,
    codeSize_cons, codeSize_append, codeSize_single]
  simp [instrSize]
  omega

theorem isDigC_toNat_le {c : Char} (h : isDigC c = true) : c.toNat ≤ 57 := by
  simp only [isDigC, Bool.and_eq_true, decide_eq_true_eq] at h
  have := Char.le_def.mp h.2
  simpa [Char.toNat] using this

theorem digsVal_single_le {c : Char} (h : isDigC c = true) :
    digsVal [c] ≤ 9 := by
  have := isDigC_toNat_le h
  simp only [digsVal, List.foldl]
  omega

theorem tokW_mkNum_le (ip fp : List Char) : tokW (mkNum ip fp) ≤ 2 := by
  unfold mkNum
  simp only [tokW]
  split <;> omega

theorem tokW_mkNum_single {c : Char} (h : isDigC c = true) :
    tokW (mkNum [c] []) = 1 := by
  have h9 : digsVal [c] ≤ 9 := digsVal_single_le h
  have h0 : digsVal ([] : List Char) = 0 := rfl
  have hsmall : litSmall
      (digsVal [c] * 10 ^ ([] : List Char).length + digsVal [])
      ([] : List Char).length = true := by
    simp only [litSmall, List.length_nil, pow_zero, mul_one,
      Bool.and_eq_true, decide_eq_true_eq]
    omega
  unfold mkNum
  simp only [tokW, hsmall, if_true]

theorem tokW_mkNum_int (ip : List Char)
    (hd : ∀ x ∈ ip, isDigC x = true) (hne : ip ≠ []) :
    tokW (mkNum ip []) ≤ ip.length := by
  cases ip with
  | nil => exact absurd rfl hne
  | cons a l =>
    cases l with
    | nil =>
      rw [tokW_mkNum_single (hd a (List.mem_cons_self a []))]
      simp
    | cons b l2 =>
      have := tokW_mkNum_le (a :: b :: l2) []
      simp only [List.length_cons]
      omega

theorem opTok_shape {c : Char} {cs : List Char} {t : Tok} {r : List Char}
    (h : opTok c cs = .ok (t, r)) : tokW t = 1 ∧ r.length ≤ cs.length := by
  unfold opTok at h
  split at h <;>
    first
      | (simp only [Except.ok.injEq, Prod.mk.injEq] at h
         obtain ⟨rfl, rfl⟩ := h
         refine ⟨rfl, ?_⟩
         try simp only [List.length_cons]
         omega)
      | simp at h

theorem wordTok_tokW {s : String} {t : Tok} (h : wordTok s = .ok t) :
    tokW t = 1 := by
  unfold wordTok at h
  split at h <;>
    first
      | (cases h; rfl)
      | simp at h

theorem takeWhile_add_dropWhile_length (p : Char → Bool) (l : List Char) :
    (l.takeWhile p).length + (l.dropWhile p).length = l.length := by
  rw [← List.length_append, List.takeWhile_append_dropWhile]

theorem consTok_inv {t : Tok} {x : Except CalcErr (List Tok)}
    {ts : List Tok} (h : consTok t x = .ok ts) :
    ∃ ts2, x = .ok ts2 ∧ ts = t :: ts2 := by
  cases x with
  | error e => exact absurd h (by simp [consTok])
  | ok ts2 =>
    refine ⟨ts2, rfl, ?_⟩
    cases h
    rfl

theorem lexA_weight : ∀ (f : ℕ) (cs : List Char) (ts : List Tok),
    lexA f cs = .ok ts → toksW ts ≤ cs.length := by
  intro f
  induction f with
  | zero =>
    intro cs ts h
    exact absurd h (by simp [lexA])
  | succ f ih =>
    intro cs ts h
    cases cs with
    | nil =>
      cases h
      simp [toksW]
    | cons c cs =>
      rw [lexA] at h
      split at h
      · have := ih cs ts h
        simp only [List.length_cons]
        omega
      · rename_i hnws
        split at h
        · rename_i hnum
          split at h
          · rename_i r2 heqd
            split at h
            · exact absurd h (by simp)
            · rename_i hguard
              split at h
              · exact absurd h (by simp)
              · rename_i ts2 hlex2
                cases h
                have hih := ih _ _ hlex2
                have h1 : ((c :: cs).takeWhile isDigC).length +
                    ('.' :: r2 : List Char).length = (c :: cs).length := by
                  rw [← heqd]
                  exact takeWhile_add_dropWhile_length _ _
                have h2 : (r2.takeWhile isDigC).length +
                    (r2.dropWhile isDigC).length = r2.length :=
                  takeWhile_add_dropWhile_length _ _
                have htw := tokW_mkNum_le ((c :: cs).takeWhile isDigC)
                  (r2.takeWhile isDigC)
                have hg2 : 1 ≤ ((c :: cs).takeWhile isDigC).length +
                    (r2.takeWhile isDigC).length := by
                  by_contra hlt
                  push_neg at hlt
                  have e1 : ((c :: cs).takeWhile isDigC).length = 0 := by
                    omega
                  have e2 : (r2.takeWhile isDigC).length = 0 := by omega
                  exact hguard ⟨List.length_eq_zero.mp e1,
                    List.length_eq_zero.mp e2⟩
                rw [toksW_cons]
                simp only [List.length_cons] at h1 ⊢
                omega
          · rename_i hnd
            split at h
            · exact absurd h (by simp)
            · rename_i ts2 hlex2
              cases h
              have hih := ih _ _ hlex2
              have hdig : isDigC c = true := by
                rcases hnum with hd | hdot
                · exact hd
                · exfalso
                  subst hdot
                  have hf : isDigC '.' = false := by decide
                  have hdw : ('.' :: cs).dropWhile isDigC = '.' :: cs := by
                    rw [List.dropWhile_cons]
                    simp [hf]
                  exact hnd cs hdw
              have htwc : (c :: cs).takeWhile isDigC =
                  c :: cs.takeWhile isDigC :=
                List.takeWhile_cons_of_pos hdig
              have h1 : ((c :: cs).takeWhile isDigC).length +
                  ((c :: cs).dropWhile isDigC).length = (c :: cs).length :=
                takeWhile_add_dropWhile_length _ _
              have htw : tokW (mkNum ((c :: cs).takeWhile isDigC) []) ≤
                  ((c :: cs).takeWhile isDigC).length := by
                refine tokW_mkNum_int _ (fun x hx => List.mem_takeWhile_imp hx)
                  ?_
                rw [htwc]
                simp
              rw [toksW_cons]
              simp only [List.length_cons] at h1 ⊢
              omega
        · split at h
          · rename_i halp
            split at h
            · exact absurd h (by simp)
            · rename_i t hword
              split at h
              · exact absurd h (by simp)
              · rename_i ts2 hlex2
                cases h
                have hih := ih _ _ hlex2
                have ht1 := wordTok_tokW hword
                have h1 : ((c :: cs).takeWhile isWordC).length +
                    ((c :: cs).dropWhile isWordC).length =
                    (c :: cs).length :=
                  takeWhile_add_dropWhile_length _ _
                have hwc : isWordC c = true := by
                  simp [isWordC, halp]
                have htwc : (c :: cs).takeWhile isWordC =
                    c :: cs.takeWhile isWordC :=
                  List.takeWhile_cons_of_pos hwc
                rw [toksW_cons, ht1]
                have h2 : 1 ≤ ((c :: cs).takeWhile isWordC).length := by
                  rw [htwc]
                  simp
                simp only [List.length_cons] at h1 ⊢
                omega
          · split at h <;>
              first
                | simp at h
                | (rename_i hop
                   obtain ⟨ts2, hlex2, rfl⟩ := consTok_inv h
                   have hih := ih _ _ hlex2
                   obtain ⟨ht1, hr⟩ := opTok_shape hop
                   rw [toksW_cons, ht1]
                   simp only [List.length_cons]
                   omega)

theorem pPrim_succ (f : ℕ) (ts : List Tok) :
    pPrim (f + 1) ts =
      (match ts with
      | .num n k :: r => .ok (.lit n k, r)
      | .varT v :: r => .ok (.var v, r)
      | .cstT c :: r => .ok (.cst c, r)
      | .rndT :: r => .ok (.rnd, r)
      | .f1 g :: .lpar :: r =>
        match pCondE f r with
        | .error e => .error e
        | .ok (a, r2) =>
          match r2 with
          | .rpar :: r3 => .ok (.op1 g a, r3)
          | [] => .error .PAREN_OPEN
          | _ => .error .SYNTAX
      | .f1 _ :: _ => .error .SYNTAX
      | .f2 g :: .lpar :: r =>
        match pCondE f r with
        | .error e => .error e
        | .ok (a, r2) =>
          match r2 with
          | .comma :: r3 =>
            match pCondE f r3 with
            | .error e => .error e
            | .ok (b, r4) =>
              match r4 with
              | .rpar :: r5 => .ok (.op2 g a b, r5)
              | [] => .error .PAREN_OPEN
              | _ => .error .SYNTAX
          | [] => .error .PAREN_OPEN
          | _ => .error .SYNTAX
      | .f2 _ :: _ => .error .SYNTAX
      | .lpar :: r =>
        match pCondE f r with
        | .error e => .error e
        | .ok (a, r2) =>
          match r2 with
          | .rpar :: r3 => .ok (a, r3)
          | .comma :: _ => .error .BAD_SEPERATOR
          | [] => .error .PAREN_OPEN
          | _ => .error .SYNTAX
      | _ => .error .INCOMPLETE) := rfl

theorem pUn_succ (f : ℕ) (ts : List Tok) :
    pUn (f + 1) ts =
      (match ts with
      | .minus :: r =>
        match pUn f r with
        | .error e => .error e
        | .ok (a, r2) => .ok (.op1 .neg a, r2)
      | .bangT :: r =>
        match pUn f r with
        | .error e => .error e
        | .ok (a, r2) => .ok (.op1 .lnot a, r2)
      | .tildeT :: r =>
        match pUn f r with
        | .error e => .error e
        | .ok (a, r2) => .ok (.op1 .bnot a, r2)
      | _ => pPrim f ts) := rfl

theorem pBinL_succ (lvl f : ℕ) (acc : Expr) (ts : List Tok) :
    pBinL lvl (f + 1) acc ts =
      (match ts with
      | t :: r =>
        match lvlOps lvl t with
        | some o =>
          match (if 9 ≤ lvl then pUn f r else pBin (lvl + 1) f r) with
          | .error e => .error e
          | .ok (e2, r2) => pBinL lvl f (.op2 o acc e2) r2
        | none => .ok (acc, ts)
      | [] => .ok (acc, ts)) := rfl

/-- Combined per-fuel weight bound for all parser levels: an accepted
parse leaves a suffix of the tokens, and six times the byte size of
the emitted code is bounded by twenty-one times the weight of the
consumed tokens plus a constant slack of twelve (the loop level is
relative to its accumulator). -/
theorem parserW : ∀ f : ℕ,
    (∀ (ts : List Tok) (e : Expr) (r : List Tok), pPrim f ts = .ok (e, r) →
      toksW r ≤ toksW ts ∧
      6 * codeSize (flattenE e) + 21 * toksW r ≤ 21 * toksW ts + 12) ∧
    (∀ (ts : List Tok) (e : Expr) (r : List Tok), pUn f ts = .ok (e, r) →
      toksW r ≤ toksW ts ∧
      6 * codeSize (flattenE e) + 21 * toksW r ≤ 21 * toksW ts + 12) ∧
    (∀ (lvl : ℕ) (ts : List Tok) (e : Expr) (r : List Tok),
      pBin lvl f ts = .ok (e, r) →
      toksW r ≤ toksW ts ∧
      6 * codeSize (flattenE e) + 21 * toksW r ≤ 21 * toksW ts + 12) ∧
    (∀ (lvl : ℕ) (e0 : Expr) (ts : List Tok) (e : Expr) (r : List Tok),
      pBinL lvl f e0 ts = .ok (e, r) →
      toksW r ≤ toksW ts ∧
      6 * codeSize (flattenE e) + 21 * toksW r ≤
        6 * codeSize (flattenE e0) + 21 * toksW ts) ∧
    (∀ (ts : List Tok) (e : Expr) (r : List Tok), pCondE f ts = .ok (e, r) →
      toksW r ≤ toksW ts ∧
      6 * codeSize (flattenE e) + 21 * toksW r ≤ 21 * toksW ts + 12) := by
  intro f
  induction f with
  | zero =>
    exact ⟨fun ts e r h => absurd h (by simp [pPrim]),
      fun ts e r h => absurd h (by simp [pUn]),
      fun lvl ts e r h => absurd h (by simp [pBin]),
      fun lvl e0 ts e r h => absurd h (by simp [pBinL]),
      fun ts e r h => absurd h (by simp [pCondE])⟩
  | succ f ih =>
    obtain ⟨ihP, ihU, ihB, ihL, ihC⟩ := ih
    refine ⟨?_, ?_, ?_, ?_, ?_⟩
    · intro ts e r h
      rw [pPrim_succ] at h
      split at h
      · rename_i n k r0
        simp only [Except.ok.injEq, Prod.mk.injEq] at h
        obtain ⟨rfl, rfl⟩ := h
        rw [toksW_cons]
        refine ⟨by omega, ?_⟩
        rw [show flattenE (Expr.lit n k) = [Instr.lit n k] from rfl,
          codeSize_single]
        show 6 * (if litSmall n k then 5 else 9) + 21 * toksW r0 ≤
          21 * ((if litSmall n k then 1 else 2) + toksW r0) + 12
        by_cases hs : litSmall n k = true
        · rw [if_pos hs, if_pos hs]
          omega
        · rw [if_neg hs, if_neg hs]
          omega
      · rename_i v r0
        simp only [Except.ok.injEq, Prod.mk.injEq] at h
        obtain ⟨rfl, rfl⟩ := h
        rw [toksW_cons]
        refine ⟨by omega, ?_⟩
        rw [show flattenE (Expr.var v) = [Instr.fetch v] from rfl,
          codeSize_single]
        show 6 * 1 + 21 * toksW r0 ≤ 21 * (1 + toksW r0) + 12
        omega
      · rename_i c0 r0
        simp only [Except.ok.injEq, Prod.mk.injEq] at h
        obtain ⟨rfl, rfl⟩ := h
        rw [toksW_cons]
        refine ⟨by omega, ?_⟩
        rw [show flattenE (Expr.cst c0) = [Instr.cst c0] from rfl,
          codeSize_single]
        show 6 * 1 + 21 * toksW r0 ≤ 21 * (1 + toksW r0) + 12
        omega
      · rename_i r0
        simp only [Except.ok.injEq, Prod.mk.injEq] at h
        obtain ⟨rfl, rfl⟩ := h
        rw [toksW_cons]
        refine ⟨by omega, ?_⟩
        rw [show flattenE Expr.rnd = [Instr.rnd] from rfl, codeSize_single]
        show 6 * 1 + 21 * toksW r0 ≤ 21 * (1 + toksW r0) + 12
        omega
      · rename_i g r0
        split at h
        · exact absurd h (by simp)
        · rename_i a r2 hpc
          split at h
          · rename_i r3
            simp only [Except.ok.injEq, Prod.mk.injEq] at h
            obtain ⟨rfl, rfl⟩ := h
            obtain ⟨hc1, hc2⟩ := ihC r0 a (.rpar :: r3) hpc
            rw [toksW_cons] at hc1 hc2
            rw [show tokW Tok.rpar = 1 from rfl] at hc1 hc2
            rw [toksW_cons, toksW_cons, codeSize_op1,
              show tokW (Tok.f1 g) = 1 from rfl,
              show tokW Tok.lpar = 1 from rfl]
            exact ⟨by omega, by omega⟩
          · exact absurd h (by simp)
          · exact absurd h (by simp)
      · exact absurd h (by simp)
      · rename_i g r0
        split at h
        · exact absurd h (by simp)
        · rename_i a r2 hpc
          split at h
          · rename_i r3
            split at h
            · exact absurd h (by simp)
            · rename_i b r4 hpc2
              split at h
              · rename_i r5
                simp only [Except.ok.injEq, Prod.mk.injEq] at h
                obtain ⟨rfl, rfl⟩ := h
                obtain ⟨hc1, hc2⟩ := ihC r0 a (.comma :: r3) hpc
                obtain ⟨hd1, hd2⟩ := ihC r3 b (.rpar :: r5) hpc2
                rw [toksW_cons] at hc1 hc2
                rw [show tokW Tok.comma = 1 from rfl] at hc1 hc2
                rw [toksW_cons] at hd1 hd2
                rw [show tokW Tok.rpar = 1 from rfl] at hd1 hd2
                rw [toksW_cons, toksW_cons, codeSize_op2,
                  show tokW (Tok.f2 g) = 1 from rfl,
                  show tokW Tok.lpar = 1 from rfl]
                exact ⟨by omega, by omega⟩
              · exact absurd h (by simp)
              · exact absurd h (by simp)
          · exact absurd h (by simp)
          · exact absurd h (by simp)
      · exact absurd h (by simp)
      · rename_i r0
        split at h
        · exact absurd h (by simp)
        · rename_i a r2 hpc
          split at h
          · rename_i r3
            simp only [Except.ok.injEq, Prod.mk.injEq] at h
            obtain ⟨rfl, rfl⟩ := h
            obtain ⟨hc1, hc2⟩ := ihC r0 a (.rpar :: r3) hpc
            rw [toksW_cons] at hc1 hc2
            rw [show tokW Tok.rpar = 1 from rfl] at hc1 hc2
            rw [toksW_cons, show tokW Tok.lpar = 1 from rfl]
            exact ⟨by omega, by omega⟩
          · exact absurd h (by simp)
          · exact absurd h (by simp)
          · exact absurd h (by simp)
      · exact absurd h (by simp)
    · intro ts e r h
      rw [pUn_succ] at h
      split at h
      · rename_i r0
        split at h
        · exact absurd h (by simp)
        · rename_i a r2 hpu
          simp only [Except.ok.injEq, Prod.mk.injEq] at h
          obtain ⟨rfl, rfl⟩ := h
          obtain ⟨hu1, hu2⟩ := ihU r0 a r2 hpu
          rw [toksW_cons, show tokW Tok.minus = 1 from rfl, codeSize_op1]
          exact ⟨by omega, by omega⟩
      · rename_i r0
        split at h
        · exact absurd h (by simp)
        · rename_i a r2 hpu
          simp only [Except.ok.injEq, Prod.mk.injEq] at h
          obtain ⟨rfl, rfl⟩ := h
          obtain ⟨hu1, hu2⟩ := ihU r0 a r2 hpu
          rw [toksW_cons, show tokW Tok.bangT = 1 from rfl, codeSize_op1]
          exact ⟨by omega, by omega⟩
      · rename_i r0
        split at h
        · exact absurd h (by simp)
        · rename_i a r2 hpu
          simp only [Except.ok.injEq, Prod.mk.injEq] at h
          obtain ⟨rfl, rfl⟩ := h
          obtain ⟨hu1, hu2⟩ := ihU r0 a r2 hpu
          rw [toksW_cons, show tokW Tok.tildeT = 1 from rfl, codeSize_op1]
          exact ⟨by omega, by omega⟩
      · exact ihP ts e r h
    · intro lvl ts e r h
      rw [pBin] at h
      split at h
      · exact absurd h (by simp)
      · rename_i e1 r1 hop
        have hfirst : toksW r1 ≤ toksW ts ∧
            6 * codeSize (flattenE e1) + 21 * toksW r1 ≤
              21 * toksW ts + 12 := by
          by_cases h9 : 9 ≤ lvl
          · rw [if_pos h9] at hop
            exact ihU ts e1 r1 hop
          · rw [if_neg h9] at hop
            exact ihB (lvl + 1) ts e1 r1 hop
        obtain ⟨ha1, ha2⟩ := hfirst
        obtain ⟨hb1, hb2⟩ := ihL lvl e1 r1 e r h
        exact ⟨le_trans hb1 ha1, by omega⟩
    · intro lvl e0 ts e r h
      rw [pBinL_succ] at h
      split at h
      · rename_i t r0
        split at h
        · rename_i o ho
          split at h
          · exact absurd h (by simp)
          · rename_i e2 r2 hop
            have hoperand : toksW r2 ≤ toksW r0 ∧
                6 * codeSize (flattenE e2) + 21 * toksW r2 ≤
                  21 * toksW r0 + 12 := by
              by_cases h9 : 9 ≤ lvl
              · rw [if_pos h9] at hop
                exact ihU r0 e2 r2 hop
              · rw [if_neg h9] at hop
                exact ihB (lvl + 1) r0 e2 r2 hop
            obtain ⟨ha1, ha2⟩ := hoperand
            obtain ⟨hb1, hb2⟩ := ihL lvl (.op2 o e0 e2) r2 e r h
            rw [codeSize_op2] at hb2
            have hw := tokW_pos t
            rw [toksW_cons]
            exact ⟨by omega, by omega⟩
        · simp only [Except.ok.injEq, Prod.mk.injEq] at h
          obtain ⟨rfl, rfl⟩ := h
          exact ⟨le_refl _, le_refl _⟩
      · simp only [Except.ok.injEq, Prod.mk.injEq] at h
        obtain ⟨rfl, rfl⟩ := h
        exact ⟨le_refl _, le_refl _⟩
    · intro ts e r h
      rw [pCondE] at h
      split at h
      · exact absurd h (by simp)
      · rename_i c r1 hpb
        have hc := ihB 0 ts c r1 hpb
        split at h
        · rename_i r2
          split at h
          · exact absurd h (by simp)
          · rename_i t r3 hpt
            have ht := ihC r2 t r3 hpt
            split at h
            · rename_i r4
              split at h
              · exact absurd h (by simp)
              · rename_i g r5 hpg
                have hg := ihC r4 g r5 hpg
                simp only [Except.ok.injEq, Prod.mk.injEq] at h
                obtain ⟨rfl, rfl⟩ := h
                obtain ⟨hc1, hc2⟩ := hc
                obtain ⟨ht1, ht2⟩ := ht
                obtain ⟨hg1, hg2⟩ := hg
                rw [toksW_cons, show tokW Tok.quest = 1 from rfl]
                  at hc1 hc2
                rw [toksW_cons, show tokW Tok.colon = 1 from rfl]
                  at ht1 ht2
                rw [codeSize_cond]
                exact ⟨by omega, by omega⟩
            · exact absurd h (by simp)
        · simp only [Except.ok.injEq, Prod.mk.injEq] at h
          obtain ⟨rfl, rfl⟩ := h
          exact hc

theorem pSub_weight {f : ℕ} {ts : List Tok} {se : SubE} {r : List Tok}
    (h : pSub f ts = .ok (se, r)) :
    toksW r ≤ toksW ts ∧
    6 * codeSize (flattenS se) + 21 * toksW r ≤ 21 * toksW ts + 12 := by
  unfold pSub at h
  split at h
  · rename_i v r0
    split at h
    · exact absurd h (by simp)
    · rename_i a r2 hpc
      simp only [Except.ok.injEq, Prod.mk.injEq] at h
      obtain ⟨rfl, rfl⟩ := h
      obtain ⟨h1, h2⟩ := (parserW f).2.2.2.2 r0 a r2 hpc
      rw [toksW_cons, toksW_cons, show tokW (Tok.varT v) = 1 from rfl,
        show tokW Tok.assignT = 1 from rfl,
        show flattenS (some v, a) = flattenE a ++ [Instr.store v] from rfl,
        codeSize_append, codeSize_single,
        show instrSize (Instr.store v) = 1 from rfl]
      exact ⟨by omega, by omega⟩
  · split at h
    · exact absurd h (by simp)
    · rename_i a r2 hpc
      simp only [Except.ok.injEq, Prod.mk.injEq] at h
      obtain ⟨rfl, rfl⟩ := h
      obtain ⟨h1, h2⟩ := (parserW f).2.2.2.2 ts a r2 hpc
      rw [show flattenS (none, a) = flattenE a from rfl]
      exact ⟨h1, h2⟩

theorem pProg_succ (f : ℕ) (ts : List Tok) :
    pProg (f + 1) ts =
      (match pSub f ts with
      | .error e => .error e
      | .ok (se, r) =>
        match r with
        | [] => .ok [se]
        | .semi :: r2 =>
          match pProg f r2 with
          | .error e => .error e
          | .ok p => .ok (se :: p)
        | .rpar :: _ => .error .PAREN_NOT_OPEN
        | .comma :: _ => .error .BAD_SEPERATOR
        | .colon :: _ => .error .CONDITIONAL
        | .assignT :: _ => .error .SYNTAX
        | _ => .error .SYNTAX) := rfl

theorem pProg_weight : ∀ (f : ℕ) (ts : List Tok) (p : Prog),
    pProg f ts = .ok p →
    6 * codeSize (flattenP p) ≤ 21 * toksW ts + 12 := by
  intro f
  induction f with
  | zero =>
    intro ts p h
    exact absurd h (by simp [pProg])
  | succ f ih =>
    intro ts p h
    rw [pProg_succ] at h
    split at h
    · exact absurd h (by simp)
    · rename_i se r hps
      obtain ⟨hw, hb⟩ := pSub_weight hps
      split at h
      · simp only [Except.ok.injEq] at h
        subst h
        rw [show flattenP [se] = flattenS se ++ flattenP [] from rfl,
          codeSize_append, show codeSize (flattenP []) = 0 from rfl]
        have h0 : toksW ([] : List Tok) = 0 := rfl
        omega
      · rename_i r2
        split at h
        · exact absurd h (by simp)
        · rename_i p2 hpr
          simp only [Except.ok.injEq] at h
          subst h
          have hrest := ih r2 p2 hpr
          rw [show flattenP (se :: p2) = flattenS se ++ flattenP p2
            from rfl, codeSize_append]
          rw [toksW_cons, show tokW Tok.semi = 1 from rfl] at hw hb
          omega
      · exact absurd h (by simp)
      · exact absurd h (by simp)
      · exact absurd h (by simp)
      · exact absurd h (by simp)
      · exact absurd h (by simp)

theorem calcParse_inv {s : String} {p : Prog} (h : calcParse s = .ok p) :
    ∃ ts, lexA (s.data.length + 1) s.data = .ok ts ∧
      pProg (16 * ts.length + 64) ts = .ok p := by
  unfold calcParse at h
  split at h
  · exact absurd h (by simp)
  · exact absurd h (by simp)
  · rename_i ts hne hts
    unfold parseToks at h
    split at h
    · exact absurd h (by simp)
    · rename_i p0 hp0
      split at h
      · cases h
        exact ⟨ts, hts, hp0⟩
      · exact absurd h (by simp)

/-- C8: the bytecode a successful compile emits for a nul-terminated
infix string of n characters (terminator included) occupies at most
n * 21 / 6 bytes (integer division), so the documented
INFIX_TO_POSTFIX_SIZE allocation always suffices and nothing is ever
written beyond it. -/
theorem claimC8 :
    ∀ (s : String) (code : List Instr), calcCompile s = .ok code →
      codeSize code ≤ (s.length + 1) * 21 / 6 := by
  intro s code h
  obtain ⟨p, hp, hcode, -⟩ := calcCompile_inv h
  subst hcode
  obtain ⟨ts, hlex, hprog⟩ := calcParse_inv hp
  have hw := lexA_weight _ _ _ hlex
  have hb := pProg_weight _ _ _ hprog
  have hslen : s.length = s.data.length := rfl
  refine (Nat.le_div_iff_mul_le (by norm_num)).mpr ?_
  omega

theorem claimC8_w :
    codeSize [Instr.lit 2 0, Instr.lit 3 0, Instr.lit 4 0,
      Instr.op2 .mul, Instr.op2 .add] ≤
      ((String.length "2+3*4") + 1) * 21 / 6 :=
  claimC8 "2+3*4"
    [Instr.lit 2 0, Instr.lit 3 0, Instr.lit 4 0,
      Instr.op2 .mul, Instr.op2 .add] (by decide)

end CalcSpec
